import Mathlib

/-!
A shallow embedding of the Cowbird parser generator (`src/lib/cowbird.js`).

The source is a single JavaScript file exposing a `Grammar` constructor that
compiles a non-terminal/alternatives mapping into an LR(0)-style automaton
(token table, production table, action table, parse table) and a `parse`
method that runs a scannerless shift/reduce loop over raw input.

Modelling conventions:
* JS strings are Lean `String` (in this Lean version a wrapper around
  `List Char`); all inputs of interest are ASCII, so JS UTF-16 lengths and
  offsets coincide with `List Char` lengths and offsets.
* Machine-level JS numbers appearing in tables are modelled as `Int`
  (shift/goto actions are positive, accept is `0`, reduce is negative).
* Terminal patterns: the source wraps each terminal token text `t` into the
  regular expression `^(t)` and asks for the matched group.  Per the spec
  (section 1) the pattern engine is a provided capability; all terminals
  exercised by the claims are literal texts, so a terminal is modelled by
  its token text and matching is "the text is a prefix of the remaining
  input, the match being the text itself".
* Unbounded JS loops (`closure`'s scan of a growing array, the
  configuration-set worklist, the parse loop) are modelled with explicit
  fuel; exhausted fuel is reported as a distinguished error so that
  nontermination is never silently converted to a result.
* Semantic actions are opaque callables; the binding context (`scope`,
  the JS `this` of an action) is opaque to the engine and not inspected by
  any claim, so an action is modelled as `List String → String`.
-/

namespace Cowbird

/-- Decimal digit character: `digitChar n` is the character for digit `n`
(the JS number-to-string conversion emits these). -/
def digitChar (n : Nat) : Char := Char.ofNat (48 + n)

/-- Decimal rendering of a natural number as a character list, fuelled
(the fuel `f` only needs to dominate the number of digits; `natStr` passes
`n` itself).  This is the standard decimal numeral, matching what JS
produces when a number is concatenated into a string. -/
def natCharsAux : Nat → Nat → List Char
  | 0, n => [digitChar (n % 10)]
  | f+1, n => if n < 10 then [digitChar n] else natCharsAux f (n / 10) ++ [digitChar (n % 10)]

/-- Decimal numeral of `n` as a character list. -/
def natStr (n : Nat) : List Char := natCharsAux n n

/-- Is `c` a decimal digit (`'0'`..`'9'`)? -/
def isDigitCh (c : Char) : Bool := decide (48 ≤ c.toNat) && decide (c.toNat ≤ 57)

/-- Value of a digit string read in base 10 (left to right). -/
def digitsVal (l : List Char) : Nat := l.foldl (fun a c => 10 * a + (c.toNat - 48)) 0

/-- Join a list of character lists with a separator, as JS `Array.join`. -/
def joinSep (sep : List Char) : List (List Char) → List Char
  | [] => []
  | [x] => x
  | x :: y :: ys => x ++ sep ++ joinSep sep (y :: ys)

/-- JS `Array.join(",")` over strings. -/
def joinComma (l : List String) : String := ⟨joinSep [','] (l.map String.data)⟩

/-- Drop the first `n` characters of a string (JS `substr(n)`). -/
def strDrop (s : String) (n : Nat) : String := ⟨s.data.drop n⟩

/-- JS `s.substr(i, n)`: up to `n` characters starting at offset `i`. -/
def jsSubstr (s : String) (i n : Nat) : String := ⟨(s.data.drop i).take n⟩

/-- Length of the run of space characters at the start of `s`
(the JS engine skips whitespace with `/^( +)/`, spaces only). -/
def countSpaces (s : String) : Nat := (s.data.takeWhile (fun c => c = ' ')).length

/-- Association-list lookup returning the first binding for `k`
(JS object property read; keys written by the source are distinct). -/
def lookupA {α β : Type} [DecidableEq α] : List (α × β) → α → Option β
  | [], _ => none
  | p :: ps, k => if p.1 = k then some p.2 else lookupA ps k

/-- Association-list upsert with JS object-assignment semantics: an existing
key keeps its position and gets the new value, a new key is appended. -/
def upsertA {α β : Type} [DecidableEq α] : List (α × β) → α → β → List (α × β)
  | [], k, v => [(k, v)]
  | p :: ps, k, v => if p.1 = k then (k, v) :: ps else p :: upsertA ps k v

/-- JS `Array.prototype.indexOf`: index of the first occurrence, `-1` if absent. -/
def jsIndexOf {α : Type} [DecidableEq α] : List α → α → Int
  | [], _ => -1
  | x :: xs, a => if x = a then 0 else
      match jsIndexOf xs a with
      | -1 => -1
      | i => i + 1

mutual
/-- JS `String.prototype.split(/\s+/)`: split on maximal runs of whitespace.
A leading run produces an empty first element and a trailing run an empty
last element, as in JS.  Main path of the splitter (building a token). -/
def jsSplitWsAux : List Char → List Char → List (List Char)
  | [], acc => [acc.reverse]
  | c :: cs, acc =>
    if c.isWhitespace then acc.reverse :: jsSplitWsSkip cs
    else jsSplitWsAux cs (c :: acc)
/-- Whitespace-run-skipping path of the splitter. -/
def jsSplitWsSkip : List Char → List (List Char)
  | [] => [[]]
  | c :: cs => if c.isWhitespace then jsSplitWsSkip cs else jsSplitWsAux cs [c]
end

/-- JS `s.split(/\s+/)` on a string. -/
def jsSplitWs (s : String) : List String := (jsSplitWsAux s.data []).map String.mk

/-! ## Data model

The compiled symbol table stores, at each index, either a terminal (the
source wraps its token text into the anchored pattern `^(text)`) or a
non-terminal (the source keeps its name as a plain string). -/

/-- A semantic action: an opaque callable receiving the popped right-hand
side values in order and returning a single replacement value (the JS
binding context is opaque and unused by any claim). -/
abbrev Action : Type := List String → String

/-- An entry of the symbol table `this.tokens`. -/
inductive Token where
  /-- Terminal: the source stores `new RegExp('^(' + text + ')')`; we keep
  the token text (matching is anchored-literal, see the header comment). -/
  | term (text : String)
  /-- Non-terminal: the source stores the name string itself. -/
  | nonterm (name : String)
deriving DecidableEq

/-- An element of an alternatives array in the user's grammar object: a
pattern (a regular-expression literal whose body, the text between the
slashes, we store directly) or a semantic action callable. -/
inductive GItem where
  | pat (body : String)
  | act (f : Action)

/-- The grammar object: non-terminal name to its array of alternatives. -/
abbrev GObj : Type := List (String × List GItem)

/-- A configuration (item): `(lhs, rhs, dot index)` over symbol indices,
exactly the `{lhs, rhs, index}` records the source builds. -/
structure Config where
  lhs : Nat
  rhs : List Nat
  index : Nat
deriving DecidableEq

/-- A configuration set (automaton state): an ordered list, as in the source. -/
abbrev ConfigSet : Type := List Config

/-- The remapped augmented grammar: non-terminal index to the list of its
alternatives' rhs index sequences (`remappedGrammar` in the source). -/
abbrev AugGrammar : Type := List (Nat × List (List Nat))

/-! ## Errors

The source throws JS values (`throw(0x00)`, `throw([0x10, lhs])`, a
string coerced from an array at the parse-failure site, or an implicit
`TypeError` from touching a property of `undefined`/`null`); every throw
funnels through `displayError`, which renders array errors with a known
code through their message template and rethrows everything else. -/

/-- A thrown JS value, as the source's `throw` sites produce them. -/
inductive JsThrown where
  /-- `throw(0x00)`: a bare number. -/
  | numv (n : Nat)
  /-- `throw([code, arg, ...])`: an error-code array. -/
  | arr (code : Nat) (args : List String)
  /-- A thrown string (the parse-failure site coerces an array to one). -/
  | strv (s : String)
  /-- A JS `TypeError` raised by dereferencing `undefined`/`null`. -/
  | typeError
deriving DecidableEq

/-- An error produced by the build phase: a thrown JS value, or exhaustion
of the fuel with which this embedding bounds the source's unbounded loops. -/
inductive EErr where
  | js (t : JsThrown)
  | fuel
deriving DecidableEq

/-- The error as it escapes `Grammar(...)`/`parse(...)` after
`displayError` (a rendered or rethrown string, a rethrown number or array,
a TypeError, or this embedding's fuel marker). -/
inductive CowErr where
  | str (s : String)
  | num (n : Nat)
  | rawArr (code : Nat) (args : List String)
  | typeError
  | fuel
deriving DecidableEq

/-- The error-template table (`errors` in the source). -/
def errTemplate (code : Nat) : Option String :=
  if code = 0x00 then some "Invalid constructor arguments."
  else if code = 0x10 then some "The non-terminal \"$$0\" is not defined in the grammar."
  else if code = 0xA1 then some "Choked while attempting to parse: $$0"
  else if code = 0xF0 then some "$$0, have you considered a career in $$1?"
  else none

/-- Template instantiation, as performed by the function `constructError`
generates: every `$$k` (greedy digit run) is replaced by `arguments[k]`
coerced to a string.  `displayError` calls the generated function with the
single argument `e.slice(1)`, so `arguments[0]` is that argument (an array,
which string-coerces to its comma-join) and every other index yields
`"undefined"`.  Fuelled by the template length (one unit per emitted chunk). -/
def renderAux (arg0 : List Char) : Nat → List Char → List Char
  | 0, l => l
  | _+1, [] => []
  | f+1, '$' :: '$' :: rest =>
    let ds := rest.takeWhile isDigitCh
    if ds = [] then '$' :: renderAux arg0 f ('$' :: rest)
    else (if digitsVal ds = 0 then arg0 else "undefined".data) ++
      renderAux arg0 f (rest.dropWhile isDigitCh)
  | f+1, c :: rest => c :: renderAux arg0 f rest

/-- Render a template with `arguments[0] = arg0` (see `renderAux`). -/
def renderTemplate (t : String) (arg0 : String) : String :=
  ⟨renderAux arg0.data t.data.length t.data⟩

/-- `displayError`: array errors whose first element is a known code are
rendered through their template (called with the single argument
`e.slice(1)`); a thrown string is looked up by its first character (only
the one-character key `"0"` exists in the table, the code `0x00`); numbers
have no `length` property, so they are rethrown as-is; everything else is
rethrown. -/
def displayError : JsThrown → CowErr
  | .numv n => .num n
  | .arr code args =>
    match errTemplate code with
    | some t => .str (renderTemplate t (joinComma args))
    | none => .rawArr code args
  | .strv s =>
    match s.data with
    | [] => .str s
    | c :: _ =>
      if c = '0' then .str "Invalid constructor arguments." else .str s
  | .typeError => .typeError

/-- Map a build-phase error to the error escaping the constructor. -/
def cowOfEErr : EErr → CowErr
  | .js t => displayError t
  | .fuel => .fuel

/-! ## Canonical serializations

`condense` builds the production key `lhs + '->' + rhs.join(',')` (the
source also splices a dot marker into a clone of `rhs`, but returns the
string built from `rhs` itself, so the dot position never appears in the
key).  Configuration sets are deduplicated by `JSON.stringify`, which for
the `{lhs, rhs, index}` records built here produces exactly the literal
layout below (keys in insertion order, no whitespace). -/

/-- The decimal rendering of a list of numbers joined by commas
(`rhs.join(',')` after number-to-string coercion). -/
def natListChars (l : List Nat) : List Char := joinSep [','] (l.map natStr)

/-- `condense(lhs, rhs)`: the production lookup/dedup key. -/
def condense (lhs : Nat) (rhs : List Nat) : String :=
  ⟨natStr lhs ++ '-' :: '>' :: natListChars rhs⟩

/-- `JSON.stringify` of one configuration record, up to (excluding) the
closing brace. -/
def serializeCfgBody (c : Config) : List Char :=
  "\x7b\"lhs\":".data ++ natStr c.lhs ++ ",\"rhs\":[".data ++
    natListChars c.rhs ++ "],\"index\":".data ++ natStr c.index

/-- `JSON.stringify` of one configuration record (character-list level). -/
def serializeCfgL (c : Config) : List Char := serializeCfgBody c ++ ['\x7d']

/-- `JSON.stringify` of a configuration set (character-list level). -/
def serializeSetL (s : ConfigSet) : List Char :=
  '[' :: joinSep [','] (s.map serializeCfgL) ++ [']']

/-- `JSON.stringify` of a configuration set, the state dedup key. -/
def serializeSet (s : ConfigSet) : String := ⟨serializeSetL s⟩

/-! ## Grammar augmentation and tokenization (`saveToken`, `buildRHS`,
`buildAlternates`, `buildProductions`) -/

/-- A usage-metrics record (`{value, terminal, count}` in the source). -/
structure Metric where
  value : String
  terminal : Bool
  count : Nat
deriving DecidableEq

/-- A production before index remapping: the rhs as resolved token names
plus the optional semantic action paired with its alternative. -/
structure Prod1 where
  rhs : List String
  action : Option Action

/-- The shared mutable workspace the build helpers close over
(`scannedTokens`, `metrics`, `augmentedGrammar`). -/
structure BSt where
  scannedTokens : List String
  metrics : List Metric
  ag : List (String × List Prod1)

/-- Increment the `count` of the metric at position `i`. -/
def bumpAt : List Metric → Nat → List Metric
  | [], _ => []
  | m :: ms, 0 => { m with count := m.count + 1 } :: ms
  | m :: ms, i+1 => m :: bumpAt ms i

/-- `saveToken(value, terminal)`: first occurrence appends to both parallel
lists with count 1; later occurrences bump the count (the `terminal` flag
of an existing entry is left as first recorded, as in the source). -/
def saveToken (st : BSt) (value : String) (terminal : Bool) : BSt :=
  let i := jsIndexOf st.scannedTokens value
  if i = -1 then
    { st with scannedTokens := st.scannedTokens ++ [value],
              metrics := st.metrics ++ [⟨value, terminal, 1⟩] }
  else
    { st with metrics := bumpAt st.metrics i.toNat }

/-- The tag scan `/^<([^>]+)>$/`: a whole-token match `<inner>` with a
non-empty `inner` free of `'>'`, returning the captured `inner`. -/
def tagMatch (t : String) : Option String :=
  match t.data with
  | '<' :: rest =>
    match rest.getLast? with
    | some c =>
      if c = '>' then
        let inner := rest.dropLast
        if inner.isEmpty then none
        else if inner.all (fun c => c ≠ '>') then some (⟨inner⟩ : String) else none
      else none
    | none => none
  | _ => none

/-- One token of a rhs, from the loop body of `buildRHS`: a bare token is
saved as a terminal; a bracketed token resolves `this` to the enclosing
lhs, is saved as a non-terminal, and, if seen for the first time, triggers
the recursive `buildProductions` (passed here as the callback `bp`). -/
def buildRHSTok (bp : String → BSt → Except EErr BSt) (lhs : String)
    (token : String) (st : BSt) : Except EErr (String × BSt) :=
  match tagMatch token with
  | none => .ok (token, saveToken st token true)
  | some inner =>
    let token := if inner = "this" then lhs else inner
    let i := jsIndexOf st.scannedTokens token
    let st := saveToken st token false
    if i = -1 then do
      let st ← bp token st
      .ok (token, st)
    else .ok (token, st)

/-- `buildRHS` over the whitespace-split token list of an alternative. -/
def buildRHSF (bp : String → BSt → Except EErr BSt) (lhs : String) :
    List String → BSt → Except EErr (List String × BSt)
  | [], st => .ok ([], st)
  | t :: ts, st => do
    let (tok, st) ← buildRHSTok bp lhs t st
    let (rest, st) ← buildRHSF bp lhs ts st
    .ok (tok :: rest, st)

/-- The pattern body of an alternatives-array item, `toString().slice(1,-1)`
in the source: for a regular-expression literal this is the text between
the slashes.  An action callable in pattern position (malformed grammar,
exercised by no claim) would expose its JS source text, which a Lean
function does not have; its body is left empty. -/
def itemBody : GItem → String
  | .pat b => b
  | .act _ => ""

/-- `buildAlternates`: each item is treated as an alternative pattern; when
the next item of the array is a callable (`/^function/` matches its
string form) it becomes this alternative's action and is consumed with it. -/
def buildAlternatesF (bp : String → BSt → Except EErr BSt) (lhs : String) :
    List GItem → BSt → Except EErr (List Prod1 × BSt)
  | [], st => .ok ([], st)
  | item :: .act f :: rest2, st => do
    let (rhs, st) ← buildRHSF bp lhs (jsSplitWs (itemBody item)) st
    let (ps, st) ← buildAlternatesF bp lhs rest2 st
    .ok (⟨rhs, some f⟩ :: ps, st)
  | item :: rest, st => do
    let (rhs, st) ← buildRHSF bp lhs (jsSplitWs (itemBody item)) st
    let (ps, st) ← buildAlternatesF bp lhs rest st
    .ok (⟨rhs, none⟩ :: ps, st)

/-- `buildProductions(lhs)`: a name missing from the grammar object throws
`[0x10, lhs]`; otherwise its alternatives are built (recursively
discovering referenced non-terminals) and recorded under `lhs`.  The fuel
bounds the recursion depth; it is an embedding artifact (the JS recursion
is guarded by `scannedTokens`, giving depth at most the number of grammar
keys, which the caller's fuel dominates). -/
def buildProductions (g : GObj) : Nat → String → BSt → Except EErr BSt
  | 0, _, _ => .error .fuel
  | fuel+1, lhs, st =>
    match lookupA g lhs with
    | none => .error (.js (.arr 0x10 [lhs]))
    | some alts => do
      let (ps, st) ← buildAlternatesF (buildProductions g fuel) lhs alts st
      .ok { st with ag := upsertA st.ag lhs ps }

/-! ## Usage-metrics sort and index remapping -/

/-- Stable insertion used by `sortMetrics`: `x` is placed after every
element with a count at least its own. -/
def insMetric (x : Metric) : List Metric → List Metric
  | [] => [x]
  | y :: ys => if x.count ≤ y.count then y :: insMetric x ys else x :: y :: ys

/-- The metrics sort `(a, b) => b.count - a.count`: descending by count,
stable on ties (discovery order preserved), as a stable insertion sort. -/
def sortMetrics (l : List Metric) : List Metric :=
  l.foldl (fun acc x => insMetric x acc) []

/-- The final symbol table: terminal values become anchored patterns,
non-terminal values stay as names (`self.tokens[i] = symbol`). -/
def tokensOf (ms : List Metric) : List Token :=
  ms.map (fun m => if m.terminal then Token.term m.value else Token.nonterm m.value)

/-- The token-value-to-new-index map (`map[symbol] = i`). -/
def mapOf (ms : List Metric) : List (String × Nat) :=
  ms.enum.map (fun p => (p.2.value, p.1))

/-- The non-terminal values in sorted-metrics order. -/
def nonTerminalsOf (ms : List Metric) : List String :=
  (ms.filter (fun m => !m.terminal)).map (fun m => m.value)

/-- `valuesAt(a, b)`: elements of the map `b` at the keys in `a`, skipping
keys with no entry. -/
def valuesAt (a : List String) (b : List (String × Nat)) : List Nat :=
  a.filterMap (lookupA b)

/-- Output of the remapping pass: the remapped grammar keyed by lhs index,
the condensed production keys, the production table `(lhs index, rhs
length)`, and the sparse action table keyed by production index. -/
structure RemapOut where
  remapped : AugGrammar
  condensedProductions : List String
  productions : List (Nat × Nat)
  actions : List (Nat × Action)

/-- Remap one non-terminal's alternatives to final indices, pushing its
productions, condensed keys, and actions in declaration order. -/
def remapLhs (tokens : List Token) (map : List (String × Nat))
    (ag1 : List (String × List Prod1)) (acc : RemapOut) (lhs : String) : RemapOut :=
  let lhsIndex := (jsIndexOf tokens (Token.nonterm lhs)).toNat
  let alts := (lookupA ag1 lhs).getD []
  let acc :=
    { acc with remapped := acc.remapped ++ [(lhsIndex, alts.map (fun p => valuesAt p.rhs map))] }
  alts.foldl (fun (acc : RemapOut) p =>
    let rhsIndices := valuesAt p.rhs map
    let prods := acc.productions ++ [(lhsIndex, p.rhs.length)]
    { remapped := acc.remapped
      condensedProductions := acc.condensedProductions ++ [condense lhsIndex rhsIndices]
      productions := prods
      actions :=
        match p.action with
        | some f => acc.actions ++ [(prods.length - 1, f)]
        | none => acc.actions }) acc

/-! ## Closure and successor -/

/-- The inner loop body of `closure`: append the dot-0 configuration for
one alternative `rhs` of `sym` unless its condensed key is already in the
`condensed` list of this call's additions. -/
def closureAdd (sym : Nat) (p : ConfigSet × List String) (rhs : List Nat) :
    ConfigSet × List String :=
  let ruleString := condense sym rhs
  if ruleString ∈ p.2 then p
  else (p.1 ++ [(⟨sym, rhs, 0⟩ : Config)], p.2 ++ [ruleString])

/-- The body of `closure`'s scan for one configuration: if the symbol after
the dot is a non-terminal of the (remapped) grammar, append one dot-0
configuration per alternative unless its condensed key was already added
during this closure call (the `condensed` list starts empty at each call
and records only this call's additions). -/
def closureStep (ag : AugGrammar) (p : ConfigSet × List String) (c : Config) :
    ConfigSet × List String :=
  match c.rhs.get? c.index with
  | none => p
  | some sym =>
    match lookupA ag sym with
    | none => p
    | some rhsList => rhsList.foldl (closureAdd sym) p

/-- The `closure` loop: index `i` scans the growing configuration list
until it catches up with the end.  The fuel is an embedding artifact
bounding the number of loop iterations; `closureFuel` below is proved
sufficient for every input. -/
def closureAux (ag : AugGrammar) (fuel : Nat) (configSet : ConfigSet)
    (condensed : List String) (i : Nat) : Option ConfigSet :=
  match configSet.get? i with
  | none => some configSet
  | some c =>
    match fuel with
    | 0 => none
    | fuel'+1 =>
      let p := closureStep ag (configSet, condensed) c
      closureAux ag fuel' p.1 p.2 (i+1)

/-- Every condensed key any closure call over `ag` can ever add. -/
def allProdStrings (ag : AugGrammar) : List String :=
  ag.foldr (fun p acc => (p.2.map (condense p.1)) ++ acc) []

/-- A sufficient iteration budget for `closure` on `cs`: the input length
plus the number of distinct admissible condensed keys. -/
def closureFuel (ag : AugGrammar) (cs : ConfigSet) : Nat :=
  cs.length + (allProdStrings ag).dedup.length

/-- `closure(configSet)`: the in-place-extended configuration set.  (The
fallback to `cs` is unreachable: `closureFuel` is proved sufficient.) -/
def closureRun (ag : AugGrammar) (cs : ConfigSet) : ConfigSet :=
  (closureAux ag (closureFuel ag cs) cs [] 0).getD cs

/-- `successor(configSet, symbol)`: advance every configuration whose
symbol after the dot is `symbol` (deep-cloned in the source; values here),
then close the result; an empty advance set yields `[]` unclosed. -/
def successorF (ag : AugGrammar) (configSet : ConfigSet) (symbol : Nat) : ConfigSet :=
  let set := configSet.filterMap (fun c =>
    if c.rhs.get? c.index = some symbol then some { c with index := c.index + 1 } else none)
  if set.length > 0 then closureRun ag set else []

/-! ## Automaton construction (worklist over configuration sets) -/

/-- One successor probe of the state-discovery pass: the source computes
`successor(configSet, config.rhs[h])` for every position `h` of every
configuration's rhs and appends the result as a new state when it is
non-empty and its `JSON.stringify` serialization is not yet recorded. -/
def expandSym (ag : AugGrammar) (set : ConfigSet)
    (p : List ConfigSet × List String) (sym : Nat) : List ConfigSet × List String :=
  let next := successorF ag set sym
  let nextString := serializeSet next
  if nextString ∉ p.2 ∧ next ≠ [] then (p.1 ++ [next], p.2 ++ [nextString]) else p

/-- Process one state: probe every rhs symbol of every configuration. -/
def processState (ag : AugGrammar) (set : ConfigSet)
    (p : List ConfigSet × List String) : List ConfigSet × List String :=
  set.foldl (fun p c => c.rhs.foldl (expandSym ag set) p) p

/-- The worklist loop over the growing state list (`configSets`), with the
recorded serializations (`condensedConfigSets`).  Fuel is an embedding
artifact; exhaustion is reported as `none` (and surfaces as `CowErr.fuel`). -/
def expandAux (ag : AugGrammar) (fuel : Nat) (cs : List ConfigSet)
    (condensed : List String) (i : Nat) : Option (List ConfigSet × List String) :=
  match cs.get? i with
  | none => some (cs, condensed)
  | some set =>
    match fuel with
    | 0 => none
    | fuel'+1 =>
      let p := processState ag set (cs, condensed)
      expandAux ag fuel' p.1 p.2 (i+1)

/-! ## Parse-table construction -/

/-- A key of a per-state action table: a numeric token index, or the
end-of-input marker `'$'`. -/
inductive TKey where
  | num (n : Nat)
  | dollar
deriving DecidableEq

/-- A per-state row: the terminal table (`row[0]`, shift/reduce/accept)
and the non-terminal table (`row[1]`, goto), kept in insertion order. -/
structure Row where
  t0 : List (TKey × Int)
  t1 : List (TKey × Int)
deriving DecidableEq

/-- A candidate table entry derived from one configuration: target slot
(`false` = terminal table `row[0]`, `true` = non-terminal table `row[1]`),
key, and encoded action. -/
structure Cell where
  slot : Bool
  key : TKey
  action : Int
deriving DecidableEq

/-- The `(table, token, action)` a configuration contributes: dot at the
end gives accept `0` (augmented start) or reduce `-(productionIndex)-1`
under `'$'`; otherwise the successor state's index (found by its
serialization) gives a goto (non-terminal symbol) or shift (terminal). -/
def cellOf (tokens : List Token) (aST : String) (ag : AugGrammar)
    (condensedProductions condensedConfigSets : List String)
    (set : ConfigSet) (c : Config) : Cell :=
  if c.index = c.rhs.length then
    if tokens.get? c.lhs = some (Token.nonterm aST) then ⟨false, .dollar, 0⟩
    else
      ⟨false, .dollar, (jsIndexOf condensedProductions (condense c.lhs c.rhs)) * (-1) - 1⟩
  else
    -- the dot is inside the rhs, so the symbol after it is present
    -- (every configuration built has `index ≤ rhs.length`)
    let token := (c.rhs.get? c.index).getD 0
    let next := successorF ag set token
    let action := jsIndexOf condensedConfigSets (serializeSet next) + 1
    match tokens.get? token with
    | some (Token.nonterm _) => ⟨true, .num token, action⟩
    | _ => ⟨false, .num token, action⟩

/-- Append a binding to an association list only when its key is still
unassigned (`row[table][token] === void 0`): first writer wins. -/
def insIfAbsent {α : Type} [DecidableEq α] (l : List (α × Int)) (k : α) (v : Int) :
    List (α × Int) :=
  if lookupA l k = none then l ++ [(k, v)] else l

/-- Insert a candidate into a row only if its `(table, token)` slot is
still unassigned: first writer wins. -/
def rowIns (row : Row) (cell : Cell) : Row :=
  if cell.slot then { row with t1 := insIfAbsent row.t1 cell.key cell.action }
  else { row with t0 := insIfAbsent row.t0 cell.key cell.action }

/-- The row of one state: fold its configurations' candidate entries, in
configuration order, through the first-writer-wins insertion. -/
def buildRow (tokens : List Token) (aST : String) (ag : AugGrammar)
    (condensedProductions condensedConfigSets : List String)
    (set : ConfigSet) : Row :=
  (set.map (cellOf tokens aST ag condensedProductions condensedConfigSets set)).foldl
    rowIns ⟨[], []⟩

/-! ## The compiled grammar and its constructor -/

/-- The compiled grammar object: the fields `Grammar` instances carry. -/
structure Grammar where
  sT : String
  aST : String
  tokens : List Token
  productions : List (Nat × Nat)
  actions : List (Nat × Action)
  table : List Row

/-- Recursion budget for `buildProductions`: the depth is bounded by the
number of grammar keys (recursion happens only for first-seen defined
names). -/
def buildFuel (g : GObj) : Nat := g.length + 2

/-- Iteration budget for the automaton worklist (ample for the grammars
considered; exhaustion surfaces as `CowErr.fuel`, never as a result). -/
def expandFuel : Nat := 1000

/-- The body of `__construct`: augment the grammar with `S' -> S` (the
fresh name is the start symbol plus a backtick), build productions
recursively from the augmented start, sort the usage metrics, remap all
indices, build the configuration sets, and construct the parse table. -/
def constructInner (grammar : GObj) (sT : String) : Except EErr Grammar := do
  let aST := sT ++ "`"
  let gAug := upsertA grammar aST [GItem.pat ("<" ++ sT ++ ">")]
  let st1 := saveToken ⟨[], [], []⟩ aST false
  let st2 ← buildProductions gAug (buildFuel gAug) aST st1
  let ms := sortMetrics st2.metrics
  let tokens := tokensOf ms
  let map := mapOf ms
  let ro := (nonTerminalsOf ms).foldl (remapLhs tokens map st2.ag) ⟨[], [], [], []⟩
  let i0 := (jsIndexOf tokens (Token.nonterm aST)).toNat
  let i1 := (jsIndexOf tokens (Token.nonterm sT)).toNat
  -- both names are always interned as non-terminals (the augmented start
  -- is saved first, and the start symbol via the augmented production),
  -- so the two `indexOf` calls always succeed
  let s0 := closureRun ro.remapped [⟨i0, [i1], 0⟩]
  match expandAux ro.remapped expandFuel [s0] [] 0 with
  | none => .error .fuel
  | some (configSets, condensedConfigSets) =>
    let table := configSets.map
      (buildRow tokens aST ro.remapped ro.condensedProductions condensedConfigSets)
    .ok ⟨sT, aST, tokens, ro.productions, ro.actions, table⟩

/-- A JS value at the constructor boundary, with the shapes `typeof` can
distinguish (note `typeof null === 'object'`). -/
inductive JsVal where
  | obj (g : GObj)
  | nullv
  | strv (s : String)
  | numv (n : Int)
  | boolv (b : Bool)
  | undef

/-- JS `typeof`. -/
def jsTypeof : JsVal → String
  | .obj _ => "object"
  | .nullv => "object"
  | .strv _ => "string"
  | .numv _ => "number"
  | .boolv _ => "boolean"
  | .undef => "undefined"

/-- The `Grammar` constructor: the guard is
`typeof grammar === 'object' && typeof sT === 'string'`; failing it throws
`0x00` (a bare number, which `displayError` rethrows unrendered).  A null
grammar passes the guard and the first property write
(`grammar[this.aST] = ...`) raises a TypeError.  (No other value shapes
satisfy the guard.)  The debug flag only stores the state list for
inspection and is not modelled further. -/
def mkGrammar (grammar sT : JsVal) (_debug : Bool) : Except CowErr Grammar :=
  if jsTypeof grammar = "object" ∧ jsTypeof sT = "string" then
    match grammar, sT with
    | .obj g, .strv s =>
      match constructInner g s with
      | .ok gr => .ok gr
      | .error e => .error (cowOfEErr e)
    | _, _ => .error .typeError
  else .error (displayError (.numv 0))

/-! ## The scannerless parse engine -/

/-- Anchored pattern match against the remaining input: the source runs
`new RegExp('^(' + text + ')').exec(rest)` and keeps the captured group.
For the literal token texts exercised here this is "the text is a prefix
of `rest`, and the match is the text itself" (the pattern engine is a
provided capability, spec section 1). -/
def execPat (text : String) (rest : String) : Option String :=
  if text.data.isPrefixOf rest.data then some text else none

/-- The runtime parse state local to one `parse` call: the scan cursor,
the state stack, and the value stack. -/
structure PState where
  index : Nat
  stack : List Int
  values : List String
deriving DecidableEq

/-- The accumulator of `findLongest`'s scan over the terminal table: the
best shift match so far (matched text and successor state) and the
recorded reduce/accept candidate. -/
structure FLAcc where
  longest : Option (String × Int)
  reduction : Option Int
deriving DecidableEq

/-- Attempt a token match for one table key: `self.tokens[key].exec(...)`.
Only shift entries are probed, and the compiler places shifts only under
terminal token indices, so the other cases (the `'$'` key, a non-terminal
or missing token) never reach `exec` on a positive entry. -/
def tkExec (tokens : List Token) (k : TKey) (stream : String) (index : Nat) :
    Option String :=
  match k with
  | .dollar => none
  | .num n =>
    match tokens.get? n with
    | some (.term text) => execPat text (strDrop stream index)
    | _ => none

/-- One iteration of `findLongest`'s `for (key in action)` body: a positive
entry probes a match and replaces the best on a strictly longer matched
text; a negative entry records a reduce; a zero entry records an accept
only when the scan position is exactly at the end of the input. -/
def flStep (tokens : List Token) (stream : String) (index : Nat)
    (acc : FLAcc) (e : TKey × Int) : FLAcc :=
  if e.2 > 0 then
    match tkExec tokens e.1 stream index with
    | some m =>
      match acc.longest with
      | none => { acc with longest := some (m, e.2) }
      | some l => if m.length > l.1.length then { acc with longest := some (m, e.2) } else acc
    | none => acc
  else if e.2 < 0 then { acc with reduction := some e.2 }
  else if stream.length = index then { acc with reduction := some 0 }
  else acc

/-- Ascending insertion by numeric key, for the enumeration order below. -/
def insAsc (x : Nat × Int) : List (Nat × Int) → List (Nat × Int)
  | [] => [x]
  | y :: ys => if y.1 ≤ x.1 then y :: insAsc x ys else x :: y :: ys

/-- JS `for...in` enumeration order over a terminal-table row: integer-like
keys first in ascending numeric order, then the string key `'$'`. -/
def iterOrder (row : List (TKey × Int)) : List (TKey × Int) :=
  ((row.filterMap (fun e =>
      match e.1 with
      | .num n => some (n, e.2)
      | .dollar => none)).foldl (fun acc e => insAsc e acc) []).map
    (fun e => (TKey.num e.1, e.2)) ++
  row.filter (fun e => match e.1 with | .dollar => true | _ => false)

/-- `findLongest()`: scan the current state's terminal table; if a match
was found, advance the cursor by the matched length, skip the following
run of spaces (`/^( +)/`), and return `[successor, matchedText]`;
otherwise return the recorded `[reduction]` if any.  Returns the action
with the optional matched value, and the updated cursor. -/
def findLongest (tokens : List Token) (row0 : List (TKey × Int))
    (stream : String) (index : Nat) : Option (Int × Option String) × Nat :=
  let acc := (iterOrder row0).foldl (flStep tokens stream index) ⟨none, none⟩
  match acc.longest with
  | some l =>
    let i := index + l.1.length
    (some (l.2, some l.1), i + countSpaces (strDrop stream i))
  | none =>
    match acc.reduction with
    | some r => (some (r, none), index)
    | none => (none, index)

/-- JS `Array.prototype.splice(start, count)` removal on a list (negative
`start` counts from the end, clamped at 0): returns the remaining list. -/
def jsSpliceRest {α : Type} (l : List α) (start : Int) (count : Nat) : List α :=
  let s := if start < 0 then (l.length + start).toNat else min start.toNat l.length
  l.take s ++ l.drop (s + count)

/-- JS `Array.prototype.splice(start, count)` removal: the removed slice. -/
def jsSpliceRemoved {α : Type} (l : List α) (start : Int) (count : Nat) : List α :=
  let s := if start < 0 then (l.length + start).toNat else min start.toNat l.length
  (l.drop s).take count

/-- The result of one iteration of the parse loop. -/
inductive StepRes where
  | cont (st : PState)
  | accept (values : List String)
  | fail (e : JsThrown)

/-- One iteration of `parse`'s `while (true)` loop: read the terminal
table of the state on top of the stack, run `findLongest`, push a matched
value, and dispatch on the returned action — push the shift target, reduce
(pop `rule[1]` states, goto via the exposed state, and, only when the
production has an action, splice that many values and push the action's
result), accept (return the value stack), or throw the parse error (an
array coerced to a string by the trailing `+'"'`, see the source). -/
def parseStep (g : Grammar) (stream : String) (st : PState) : StepRes :=
  match st.stack.getLast? with
  | none => .fail .typeError
  | some cur =>
    if cur < 0 then .fail .typeError
    else
      match g.table.get? cur.toNat with
      | none => .fail .typeError
      | some row =>
        let fl := findLongest g.tokens row.t0 stream st.index
        let index' := fl.2
        match fl.1 with
        | none =>
          .fail (.strv ("161," ++ "\"" ++ jsSubstr stream index' 40 ++ "\""))
        | some (tokenIndex, value) =>
          let values :=
            match value with
            | some v => st.values ++ [v]
            | none => st.values
          if tokenIndex > 0 then
            .cont ⟨index', st.stack ++ [tokenIndex], values⟩
          else if tokenIndex < 0 then
            let productionIndex := ((tokenIndex + 1) * (-1)).toNat
            match g.productions.get? productionIndex with
            | none => .fail .typeError
            | some rule =>
              let stack1 := jsSpliceRest st.stack (st.stack.length - (rule.2 : Int)) rule.2
              match stack1.getLast? with
              | none => .fail .typeError
              | some top =>
                if top < 0 then .fail .typeError
                else
                  match g.table.get? top.toNat with
                  | none => .fail .typeError
                  | some goTo =>
                    let stack2 :=
                      match lookupA goTo.t1 (TKey.num rule.1) with
                      | some v => if v ≠ 0 then stack1 ++ [v] else stack1
                      | none => stack1
                    let values2 :=
                      match lookupA g.actions productionIndex with
                      | some f =>
                        let args :=
                          jsSpliceRemoved values (values.length - (rule.2 : Int)) rule.2
                        jsSpliceRest values (values.length - (rule.2 : Int)) rule.2 ++ [f args]
                      | none => values
                    .cont ⟨index', stack2, values2⟩
          else .accept values

/-- The parse loop with an explicit iteration budget (the JS loop can
genuinely diverge on cyclic reduce behaviour; exhaustion is reported as
`CowErr.fuel`, never as a result). -/
def parseLoop (g : Grammar) (stream : String) : Nat → PState → Except CowErr (List String)
  | 0, _ => .error .fuel
  | fuel+1, st =>
    match parseStep g stream st with
    | .cont st' => parseLoop g stream fuel st'
    | .accept vs => .ok vs
    | .fail e => .error (displayError e)

/-- Iteration budget for one `parse` call (ample for the inputs considered). -/
def parseFuel : Nat := 1000

/-- `parse(stream)`: fresh cursor at 0, fresh state stack `[0]`, fresh
value stack `[]`, then the loop; a thrown error passes through
`displayError`.  (The binding context `scope` is opaque to the engine and
only forwarded to actions; it is not modelled, see the header comment.) -/
def parse (g : Grammar) (stream : String) : Except CowErr (List String) :=
  parseLoop g stream parseFuel ⟨0, [0], []⟩

/-- The `parse` call on the grammar object: JS `parse` reads
`this.tokens`, `this.productions`, `this.actions`, `this.table` but never
writes to `this`; the pair returned here is the call's result together
with the grammar object as the call leaves it. -/
def parseCall (g : Grammar) (stream : String) : Except CowErr (List String) × Grammar :=
  (parse g stream, g)

/-! ## Lemmas: decimal numerals -/

theorem digitChar_toNat {d : Nat} (h : d < 10) : (digitChar d).toNat = 48 + d := by
  interval_cases d <;> rfl

theorem digitChar_isDigit {d : Nat} (h : d < 10) : isDigitCh (digitChar d) = true := by
  interval_cases d <;> rfl

theorem digitsVal_append_one (l : List Char) (c : Char) :
    digitsVal (l ++ [c]) = 10 * digitsVal l + (c.toNat - 48) := by
  simp [digitsVal, List.foldl_append]

theorem natCharsAux_spec (f : Nat) : ∀ n : Nat, n ≤ f →
    (∀ c ∈ natCharsAux f n, isDigitCh c = true) ∧ natCharsAux f n ≠ [] ∧
      digitsVal (natCharsAux f n) = n := by
  induction f with
  | zero =>
    intro n hn
    interval_cases n
    exact ⟨by intro c hc; simp [natCharsAux] at hc; subst hc; rfl, by simp [natCharsAux],
      by rfl⟩
  | succ f ih =>
    intro n hn
    by_cases h10 : n < 10
    · refine ⟨?_, ?_, ?_⟩
      · intro c hc
        simp only [natCharsAux, if_pos h10, List.mem_singleton] at hc
        subst hc; exact digitChar_isDigit h10
      · simp [natCharsAux, if_pos h10]
      · simp only [natCharsAux, if_pos h10]
        have := digitChar_toNat h10
        simp [digitsVal, this]
    · have hdiv : n / 10 < n := Nat.div_lt_self (by omega) (by omega)
      have hf : n / 10 ≤ f := by omega
      obtain ⟨hdig, hne, hval⟩ := ih (n / 10) hf
      refine ⟨?_, ?_, ?_⟩
      · intro c hc
        simp only [natCharsAux, if_neg h10, List.mem_append, List.mem_singleton] at hc
        rcases hc with hc | hc
        · exact hdig c hc
        · subst hc; exact digitChar_isDigit (Nat.mod_lt _ (by omega))
      · simp [natCharsAux, if_neg h10]
      · simp only [natCharsAux, if_neg h10]
        rw [digitsVal_append_one, hval, digitChar_toNat (Nat.mod_lt _ (by omega))]
        omega

theorem natStr_digits {n : Nat} : ∀ c ∈ natStr n, isDigitCh c = true :=
  (natCharsAux_spec n n le_rfl).1

theorem natStr_ne_nil {n : Nat} : natStr n ≠ [] :=
  (natCharsAux_spec n n le_rfl).2.1

theorem digitsVal_natStr (n : Nat) : digitsVal (natStr n) = n :=
  (natCharsAux_spec n n le_rfl).2.2

theorem natStr_inj {m n : Nat} (h : natStr m = natStr n) : m = n := by
  have hm := digitsVal_natStr m
  have hn := digitsVal_natStr n
  rw [h] at hm
  omega

/-! ## Lemmas: splitting concatenations of digit runs -/

/-- A digit run followed by a non-digit remainder determines both parts. -/
theorem digits_split : ∀ (a1 a2 r1 r2 : List Char),
    (∀ c ∈ a1, isDigitCh c = true) → (∀ c ∈ a2, isDigitCh c = true) →
    (∀ c, r1.head? = some c → isDigitCh c = false) →
    (∀ c, r2.head? = some c → isDigitCh c = false) →
    a1 ≠ [] → a2 ≠ [] → a1 ++ r1 = a2 ++ r2 → a1 = a2 ∧ r1 = r2 := by
  intro a1
  induction a1 with
  | nil => intro a2 r1 r2 _ _ _ _ hne; exact absurd rfl hne
  | cons c cs ih =>
    intro a2 r1 r2 hd1 hd2 hr1 hr2 _ hne2 heq
    cases a2 with
    | nil => exact absurd rfl hne2
    | cons d ds =>
      simp only [List.cons_append, List.cons.injEq] at heq
      obtain ⟨hcd, htail⟩ := heq
      subst hcd
      cases cs with
      | nil =>
        cases ds with
        | nil =>
          simp only [List.nil_append] at htail
          exact ⟨rfl, htail⟩
        | cons e es =>
          exfalso
          simp only [List.nil_append, List.cons_append] at htail
          have he : isDigitCh e = true := hd2 e (by simp)
          have : r1.head? = some e := by rw [htail]; rfl
          have := hr1 e this
          rw [he] at this
          exact Bool.noConfusion this
      | cons c2 cs2 =>
        cases ds with
        | nil =>
          exfalso
          simp only [List.nil_append, List.cons_append] at htail
          have he : isDigitCh c2 = true := hd1 c2 (by simp)
          have : r2.head? = some c2 := by rw [← htail]; rfl
          have := hr2 c2 this
          rw [he] at this
          exact Bool.noConfusion this
        | cons d2 ds2 =>
          have h1 : ∀ x ∈ c2 :: cs2, isDigitCh x = true := by
            intro x hx; exact hd1 x (List.mem_cons_of_mem _ hx)
          have h2 : ∀ x ∈ d2 :: ds2, isDigitCh x = true := by
            intro x hx; exact hd2 x (List.mem_cons_of_mem _ hx)
          obtain ⟨ha, hr⟩ := ih (d2 :: ds2) r1 r2 h1 h2 hr1 hr2 (by simp) (by simp) htail
          exact ⟨by rw [ha], hr⟩

/-- A marker-free part followed by the marker determines both parts. -/
theorem split_at_marker (m : Char) : ∀ (x1 x2 r1 r2 : List Char),
    (∀ c ∈ x1, c ≠ m) → (∀ c ∈ x2, c ≠ m) →
    x1 ++ m :: r1 = x2 ++ m :: r2 → x1 = x2 ∧ r1 = r2 := by
  intro x1
  induction x1 with
  | nil =>
    intro x2 r1 r2 _ hx2 heq
    cases x2 with
    | nil => simpa using heq
    | cons d ds =>
      exfalso
      simp only [List.nil_append, List.cons_append, List.cons.injEq] at heq
      exact hx2 d (by simp) heq.1.symm
  | cons c cs ih =>
    intro x2 r1 r2 hx1 hx2 heq
    cases x2 with
    | nil =>
      exfalso
      simp only [List.nil_append, List.cons_append, List.cons.injEq] at heq
      exact hx1 c (by simp) heq.1
    | cons d ds =>
      simp only [List.cons_append, List.cons.injEq] at heq
      obtain ⟨hcd, htail⟩ := heq
      subst hcd
      obtain ⟨ha, hr⟩ := ih ds r1 r2 (fun x hx => hx1 x (List.mem_cons_of_mem _ hx))
        (fun x hx => hx2 x (List.mem_cons_of_mem _ hx)) htail
      exact ⟨by rw [ha], hr⟩

/-- A comma-joined digit-run list closed by a non-digit, non-comma marker
determines the list and the remainder. -/
theorem natList_split (em : Char) (hd : isDigitCh em = false) (hc : em ≠ ',') :
    ∀ (l1 l2 : List Nat) (r1 r2 : List Char),
    natListChars l1 ++ em :: r1 = natListChars l2 ++ em :: r2 → l1 = l2 ∧ r1 = r2 := by
  intro l1
  induction l1 with
  | nil =>
    intro l2 r1 r2 heq
    cases l2 with
    | nil => simpa [natListChars, joinSep] using heq
    | cons y ys =>
      exfalso
      have hstart : ∃ t, natListChars (y :: ys) = natStr y ++ t := by
        cases ys with
        | nil => exact ⟨[], by simp [natListChars, joinSep]⟩
        | cons z zs => exact ⟨',' :: natListChars (z :: zs), by simp [natListChars, joinSep]⟩
      obtain ⟨t, ht⟩ := hstart
      rw [ht] at heq
      simp only [natListChars, List.map_nil, joinSep, List.nil_append] at heq
      obtain ⟨c, cs, hys⟩ : ∃ c cs, natStr y = c :: cs := by
        cases hny : natStr y with
        | nil => exact absurd hny natStr_ne_nil
        | cons c cs => exact ⟨c, cs, rfl⟩
      rw [hys] at heq
      simp only [List.cons_append, List.cons.injEq] at heq
      have hdig : isDigitCh c = true := natStr_digits c (by rw [hys]; simp)
      obtain ⟨h1, -⟩ := heq
      subst h1
      rw [hdig] at hd
      exact Bool.noConfusion hd
  | cons x xs ih =>
    intro l2 r1 r2 heq
    cases l2 with
    | nil =>
      exfalso
      have hstart : ∃ t, natListChars (x :: xs) = natStr x ++ t := by
        cases xs with
        | nil => exact ⟨[], by simp [natListChars, joinSep]⟩
        | cons z zs => exact ⟨',' :: natListChars (z :: zs), by simp [natListChars, joinSep]⟩
      obtain ⟨t, ht⟩ := hstart
      rw [ht] at heq
      simp only [natListChars, List.map_nil, joinSep, List.nil_append] at heq
      obtain ⟨c, cs, hys⟩ : ∃ c cs, natStr x = c :: cs := by
        cases hny : natStr x with
        | nil => exact absurd hny natStr_ne_nil
        | cons c cs => exact ⟨c, cs, rfl⟩
      rw [hys] at heq
      simp only [List.cons_append, List.cons.injEq] at heq
      have hdig : isDigitCh c = true := natStr_digits c (by rw [hys]; simp)
      obtain ⟨h1, -⟩ := heq
      subst h1
      rw [hdig] at hd
      exact Bool.noConfusion hd
    | cons y ys =>
      have expand : ∀ (a : Nat) (as : List Nat) (r : List Char),
          natListChars (a :: as) ++ em :: r =
            natStr a ++ ((match as with
              | [] => ([] : List Char)
              | _ :: _ => ',' :: natListChars as) ++ em :: r) := by
        intro a as r
        cases as with
        | nil => simp [natListChars, joinSep]
        | cons z zs => simp [natListChars, joinSep]
      rw [expand x xs r1, expand y ys r2] at heq
      have hhead : ∀ (as : List Nat) (r : List Char),
          ∀ c, ((match as with
              | [] => ([] : List Char)
              | _ :: _ => ',' :: natListChars as) ++ em :: r).head? = some c →
            isDigitCh c = false := by
        intro as r c hcc
        cases as with
        | nil => simp only [List.nil_append, List.head?_cons, Option.some.injEq] at hcc; subst hcc; exact hd
        | cons z zs => simp only [List.cons_append, List.head?_cons, Option.some.injEq] at hcc; subst hcc; rfl
      obtain ⟨hxy, htail⟩ := digits_split (natStr x) (natStr y) _ _
        natStr_digits natStr_digits (hhead xs r1) (hhead ys r2)
        natStr_ne_nil natStr_ne_nil heq
      have hxy' : x = y := natStr_inj hxy
      subst hxy'
      cases xs with
      | nil =>
        cases ys with
        | nil =>
          simp only [List.nil_append, List.cons.injEq] at htail
          exact ⟨rfl, htail.2⟩
        | cons z zs =>
          exfalso
          simp only [List.nil_append, List.cons_append, List.cons.injEq] at htail
          exact hc htail.1
      | cons w ws =>
        cases ys with
        | nil =>
          exfalso
          simp only [List.nil_append, List.cons_append, List.cons.injEq] at htail
          exact hc htail.1.symm
        | cons z zs =>
          simp only [List.cons_append, List.cons.injEq] at htail
          obtain ⟨hl, hr⟩ := ih (z :: zs) r1 r2 htail.2
          exact ⟨by rw [hl], hr⟩

/-- Equal comma-joined digit-run lists come from equal number lists. -/
theorem natListChars_inj {l1 l2 : List Nat} (h : natListChars l1 = natListChars l2) :
    l1 = l2 := by
  have : natListChars l1 ++ ']' :: [] = natListChars l2 ++ ']' :: [] := by rw [h]
  exact (natList_split ']' (by rfl) (by decide) l1 l2 [] [] this).1

/-- `condense` is injective: equal keys come from equal productions. -/
theorem condense_inj {l1 l2 : Nat} {r1 r2 : List Nat}
    (h : condense l1 r1 = condense l2 r2) : l1 = l2 ∧ r1 = r2 := by
  have h' : natStr l1 ++ '-' :: '>' :: natListChars r1 =
      natStr l2 ++ '-' :: '>' :: natListChars r2 := congrArg String.data h
  obtain ⟨ha, hr⟩ := digits_split (natStr l1) (natStr l2) _ _
    natStr_digits natStr_digits
    (by intro c hcc; simp at hcc; subst hcc; rfl)
    (by intro c hcc; simp at hcc; subst hcc; rfl)
    natStr_ne_nil natStr_ne_nil h'
  have hr' : natListChars r1 = natListChars r2 := by simpa using hr
  exact ⟨natStr_inj ha, natListChars_inj hr'⟩

/-! ## Lemmas: injectivity of the `JSON.stringify` serialization -/

theorem litLhs_eq : "\x7b\"lhs\":".data = '\x7b' :: '"' :: 'l' :: 'h' :: 's' :: '"' :: ':' :: [] := rfl

theorem litRhs_eq : ",\"rhs\":[".data = ',' :: '"' :: 'r' :: 'h' :: 's' :: '"' :: ':' :: '[' :: [] := rfl

theorem litIndex_eq :
    "],\"index\":".data = ']' :: ',' :: '"' :: 'i' :: 'n' :: 'd' :: 'e' :: 'x' :: '"' :: ':' :: [] := rfl

theorem digit_ne_brace {ch : Char} (h : isDigitCh ch = true) : ch ≠ '\x7d' := by
  intro heq
  subst heq
  exact absurd h (by decide)

theorem mem_natListChars {ch : Char} : ∀ {l : List Nat}, ch ∈ natListChars l →
    ch = ',' ∨ isDigitCh ch = true := by
  intro l
  induction l with
  | nil => intro h; simp [natListChars, joinSep] at h
  | cons x xs ih =>
    intro h
    cases xs with
    | nil =>
      simp only [natListChars, List.map_cons, List.map_nil, joinSep] at h
      exact Or.inr (natStr_digits ch h)
    | cons y ys =>
      have hexp : natListChars (x :: y :: ys) = natStr x ++ [','] ++ natListChars (y :: ys) := by
        simp [natListChars, joinSep]
      rw [hexp] at h
      rcases List.mem_append.mp h with h2 | h2
      · rcases List.mem_append.mp h2 with h3 | h3
        · exact Or.inr (natStr_digits ch h3)
        · simp only [List.mem_singleton] at h3
          exact Or.inl h3
      · exact ih h2

theorem serializeCfgBody_no_brace {c : Config} : ∀ ch ∈ serializeCfgBody c, ch ≠ '\x7d' := by
  intro ch hch
  simp only [serializeCfgBody, litLhs_eq, litRhs_eq, litIndex_eq, List.append_assoc,
    List.mem_append] at hch
  rcases hch with h | h | h | h | h | h
  · exact (by decide : ∀ x ∈ ('\x7b' :: '"' :: 'l' :: 'h' :: 's' :: '"' :: ':' :: []), x ≠ '\x7d') ch h
  · exact digit_ne_brace (natStr_digits ch h)
  · exact (by decide : ∀ x ∈ (',' :: '"' :: 'r' :: 'h' :: 's' :: '"' :: ':' :: '[' :: []), x ≠ '\x7d') ch h
  · rcases mem_natListChars h with h' | h'
    · subst h'; decide
    · exact digit_ne_brace h'
  · exact (by decide : ∀ x ∈ (']' :: ',' :: '"' :: 'i' :: 'n' :: 'd' :: 'e' :: 'x' :: '"' :: ':' :: []), x ≠ '\x7d') ch h
  · exact digit_ne_brace (natStr_digits ch h)

theorem serializeCfgBody_inj {c1 c2 : Config}
    (h : serializeCfgBody c1 = serializeCfgBody c2) : c1 = c2 := by
  obtain ⟨l1, r1, i1⟩ := c1
  obtain ⟨l2, r2, i2⟩ := c2
  simp only [serializeCfgBody, litLhs_eq, litRhs_eq, litIndex_eq, List.append_assoc,
    List.cons_append, List.nil_append, List.cons.injEq, true_and] at h
  obtain ⟨hl, htail⟩ := digits_split (natStr l1) (natStr l2) _ _ natStr_digits natStr_digits
    (by intro c hcc; simp only [List.head?_cons, Option.some.injEq] at hcc; subst hcc; rfl)
    (by intro c hcc; simp only [List.head?_cons, Option.some.injEq] at hcc; subst hcc; rfl)
    natStr_ne_nil natStr_ne_nil h
  simp only [List.cons.injEq, true_and] at htail
  obtain ⟨hr, hrest⟩ := natList_split ']' (by rfl) (by decide) r1 r2 _ _ htail
  simp only [List.cons.injEq, true_and] at hrest
  simp only [Config.mk.injEq]
  exact ⟨natStr_inj hl, hr, natStr_inj hrest⟩

theorem serializeCfgL_shape (c : Config) : ∃ t, serializeCfgL c = '\x7b' :: t := by
  simp only [serializeCfgL, serializeCfgBody, litLhs_eq, List.cons_append, List.append_assoc]
  exact ⟨_, rfl⟩

theorem serializeCfgL_inj {c1 c2 : Config} (h : serializeCfgL c1 = serializeCfgL c2) :
    c1 = c2 := by
  have h' : serializeCfgBody c1 ++ '\x7d' :: [] = serializeCfgBody c2 ++ '\x7d' :: [] := h
  exact serializeCfgBody_inj
    (split_at_marker '\x7d' _ _ _ _ serializeCfgBody_no_brace serializeCfgBody_no_brace h').1

/-- A comma-joined list of configuration serializations closed by `']'`
determines the configuration list and the remainder. -/
theorem cfgJoin_split : ∀ (s1 s2 : ConfigSet) (r1 r2 : List Char),
    joinSep [','] (s1.map serializeCfgL) ++ ']' :: r1 =
      joinSep [','] (s2.map serializeCfgL) ++ ']' :: r2 → s1 = s2 ∧ r1 = r2 := by
  intro s1
  induction s1 with
  | nil =>
    intro s2 r1 r2 heq
    cases s2 with
    | nil => simpa [joinSep] using heq
    | cons c cs =>
      exfalso
      obtain ⟨t, ht⟩ := serializeCfgL_shape c
      have hexp : ∃ u, joinSep [','] ((c :: cs).map serializeCfgL) ++ ']' :: r2 =
          '\x7b' :: u := by
        cases cs with
        | nil => exact ⟨t ++ ']' :: r2, by simp [joinSep, ht]⟩
        | cons d ds =>
          exact ⟨t ++ (',' :: joinSep [','] ((d :: ds).map serializeCfgL)) ++ ']' :: r2,
            by simp [joinSep, ht]⟩
      obtain ⟨u, hu⟩ := hexp
      rw [hu] at heq
      simp only [List.map_nil, joinSep, List.nil_append, List.cons.injEq] at heq
      exact absurd heq.1 (by decide)
  | cons c cs ih =>
    intro s2 r1 r2 heq
    cases s2 with
    | nil =>
      exfalso
      obtain ⟨t, ht⟩ := serializeCfgL_shape c
      have hexp : ∃ u, joinSep [','] ((c :: cs).map serializeCfgL) ++ ']' :: r1 =
          '\x7b' :: u := by
        cases cs with
        | nil => exact ⟨t ++ ']' :: r1, by simp [joinSep, ht]⟩
        | cons d ds =>
          exact ⟨t ++ (',' :: joinSep [','] ((d :: ds).map serializeCfgL)) ++ ']' :: r1,
            by simp [joinSep, ht]⟩
      obtain ⟨u, hu⟩ := hexp
      rw [hu] at heq
      simp only [List.map_nil, joinSep, List.nil_append, List.cons.injEq] at heq
      exact absurd heq.1 (by decide)
    | cons d ds =>
      have expand : ∀ (a : Config) (as : ConfigSet) (r : List Char),
          joinSep [','] ((a :: as).map serializeCfgL) ++ ']' :: r =
            serializeCfgBody a ++ '\x7d' :: ((match as with
              | [] => ([] : List Char)
              | _ :: _ => ',' :: joinSep [','] (as.map serializeCfgL)) ++ ']' :: r) := by
        intro a as r
        cases as with
        | nil => simp [joinSep, serializeCfgL]
        | cons z zs => simp [joinSep, serializeCfgL]
      rw [expand c cs r1, expand d ds r2] at heq
      obtain ⟨hbody, htail⟩ := split_at_marker '\x7d' _ _ _ _
        serializeCfgBody_no_brace serializeCfgBody_no_brace heq
      have hcd : c = d := serializeCfgBody_inj hbody
      subst hcd
      cases cs with
      | nil =>
        cases ds with
        | nil =>
          simp only [List.nil_append, List.cons.injEq, true_and] at htail
          exact ⟨rfl, htail⟩
        | cons z zs =>
          exfalso
          simp only [List.nil_append, List.cons_append, List.cons.injEq] at htail
          exact absurd htail.1 (by decide)
      | cons w ws =>
        cases ds with
        | nil =>
          exfalso
          simp only [List.nil_append, List.cons_append, List.cons.injEq] at htail
          exact absurd htail.1 (by decide)
        | cons z zs =>
          simp only [List.cons_append, List.cons.injEq, true_and] at htail
          obtain ⟨hl, hr⟩ := ih (z :: zs) r1 r2 htail
          exact ⟨by rw [hl], hr⟩

/-- `JSON.stringify` is injective on configuration sets: textually equal
serializations only arise from identical configuration lists (same
configurations in the same order). -/
theorem serializeSet_inj {s1 s2 : ConfigSet} (h : serializeSet s1 = serializeSet s2) :
    s1 = s2 := by
  have h' : serializeSetL s1 = serializeSetL s2 := congrArg String.data h
  simp only [serializeSetL, List.cons.injEq, true_and] at h'
  have h'' : joinSep [','] (s1.map serializeCfgL) ++ ']' :: [] =
      joinSep [','] (s2.map serializeCfgL) ++ ']' :: [] := by
    simpa using h'
  exact (cfgJoin_split s1 s2 [] [] h'').1

/-! ## Lemmas: the closure computation -/

/-- The condensed key of a configuration (its dot position is ignored by
`condense`, see the definition). -/
def keyOf (c : Config) : String := condense c.lhs c.rhs

/-- A configuration is closed inside a set: every alternative of the
non-terminal after its dot occurs, with dot 0, in the set. -/
def closedAt (ag : AugGrammar) (cs : ConfigSet) (c : Config) : Prop :=
  ∀ sym alts, c.rhs.get? c.index = some sym → lookupA ag sym = some alts →
    ∀ r ∈ alts, (⟨sym, r, 0⟩ : Config) ∈ cs

theorem mem_allProdStrings {ag : AugGrammar} {sym : Nat} {alts : List (List Nat)}
    {r : List Nat} (hl : lookupA ag sym = some alts) (hr : r ∈ alts) :
    condense sym r ∈ allProdStrings ag := by
  induction ag with
  | nil => simp [lookupA] at hl
  | cons p ps ih =>
    simp only [allProdStrings, List.foldr_cons, List.mem_append]
    by_cases hp : p.1 = sym
    · simp only [lookupA, if_pos hp] at hl
      obtain rfl : p.2 = alts := by exact Option.some.inj hl
      subst hp
      exact Or.inl (List.mem_map_of_mem _ hr)
    · simp only [lookupA, if_neg hp] at hl
      exact Or.inr (ih hl)

theorem nodup_length_le_dedup {l m : List String} (hn : l.Nodup)
    (hs : ∀ x ∈ l, x ∈ m) : l.length ≤ m.dedup.length := by
  have h1 : l.toFinset.card = l.length := List.toFinset_card_of_nodup hn
  have h3 : l.toFinset ⊆ m.toFinset := by
    intro x hx
    exact List.mem_toFinset.mpr (hs x (List.mem_toFinset.mp hx))
  calc l.length = l.toFinset.card := h1.symm
    _ ≤ m.toFinset.card := Finset.card_le_card h3
    _ = m.dedup.length := by rw [List.card_toFinset]

/-- Behaviour of the inner closure fold over the alternatives of `sym`:
it extends both components in lockstep with fresh dot-0 configurations,
preserves distinctness of the condensed keys, and afterwards every
alternative's key is recorded. -/
theorem closureAdd_fold_spec (sym : Nat) : ∀ (alts : List (List Nat)) (p : ConfigSet × List String),
    ∃ adds : ConfigSet,
      (alts.foldl (closureAdd sym) p).1 = p.1 ++ adds ∧
      (alts.foldl (closureAdd sym) p).2 = p.2 ++ adds.map keyOf ∧
      (∀ a ∈ adds, a.index = 0 ∧ a.lhs = sym ∧ a.rhs ∈ alts) ∧
      (p.2.Nodup → (alts.foldl (closureAdd sym) p).2.Nodup) ∧
      (∀ r ∈ alts, condense sym r ∈ (alts.foldl (closureAdd sym) p).2) := by
  intro alts
  induction alts with
  | nil =>
    intro p
    exact ⟨[], by simp, by simp, by simp, fun h => by simpa using h, by simp⟩
  | cons r rs ih =>
    intro p
    by_cases hmem : condense sym r ∈ p.2
    · have hstep : closureAdd sym p r = p := by simp [closureAdd, hmem]
      obtain ⟨adds, h1, h2, h3, h4, h5⟩ := ih p
      refine ⟨adds, ?_, ?_, ?_, ?_, ?_⟩
      · simpa [List.foldl_cons, hstep] using h1
      · simpa [List.foldl_cons, hstep] using h2
      · intro a ha
        obtain ⟨hi, hl, hr⟩ := h3 a ha
        exact ⟨hi, hl, List.mem_cons_of_mem _ hr⟩
      · intro hn
        simpa [List.foldl_cons, hstep] using h4 hn
      · intro r' hr'
        rcases List.mem_cons.mp hr' with hr' | hr'
        · subst hr'
          have : condense sym r' ∈ p.2 ++ adds.map keyOf := List.mem_append_left _ hmem
          rw [← h2] at this
          simpa [List.foldl_cons, hstep] using this
        · simpa [List.foldl_cons, hstep] using h5 r' hr'
    · have hstep : closureAdd sym p r =
          (p.1 ++ [(⟨sym, r, 0⟩ : Config)], p.2 ++ [condense sym r]) := by
        simp [closureAdd, hmem]
      obtain ⟨adds, h1, h2, h3, h4, h5⟩ :=
        ih (p.1 ++ [(⟨sym, r, 0⟩ : Config)], p.2 ++ [condense sym r])
      refine ⟨(⟨sym, r, 0⟩ : Config) :: adds, ?_, ?_, ?_, ?_, ?_⟩
      · simp only [List.foldl_cons, hstep]
        rw [h1]
        simp
      · simp only [List.foldl_cons, hstep]
        rw [h2]
        simp [keyOf, condense]
      · intro a ha
        rcases List.mem_cons.mp ha with ha | ha
        · subst ha
          exact ⟨rfl, rfl, List.mem_cons_self _ _⟩
        · obtain ⟨hi, hl, hr⟩ := h3 a ha
          exact ⟨hi, hl, List.mem_cons_of_mem _ hr⟩
      · intro hn
        simp only [List.foldl_cons, hstep]
        apply h4
        simp only [List.nodup_append, List.nodup_cons, List.nodup_nil]
        exact ⟨hn, ⟨by simp, by simp⟩, by simpa [List.disjoint_singleton]⟩
      · intro r' hr'
        rcases List.mem_cons.mp hr' with hr' | hr'
        · subst hr'
          have hin : condense sym r' ∈ p.2 ++ [condense sym r'] := by simp
          simp only [List.foldl_cons, hstep]
          rw [h2]
          exact List.mem_append_left _ hin
        · simp only [List.foldl_cons, hstep]
          exact h5 r' hr'

/-- Behaviour of one iteration of `closure`'s outer loop. -/
theorem closureStep_spec (ag : AugGrammar) (p : ConfigSet × List String) (c : Config) :
    ∃ adds : ConfigSet,
      (closureStep ag p c).1 = p.1 ++ adds ∧
      (closureStep ag p c).2 = p.2 ++ adds.map keyOf ∧
      (∀ a ∈ adds, a.index = 0 ∧ ∃ alts, lookupA ag a.lhs = some alts ∧ a.rhs ∈ alts) ∧
      (p.2.Nodup → (closureStep ag p c).2.Nodup) ∧
      (∀ sym alts, c.rhs.get? c.index = some sym → lookupA ag sym = some alts →
        ∀ r ∈ alts, condense sym r ∈ (closureStep ag p c).2) := by
  cases hget : c.rhs.get? c.index with
  | none =>
    have hcs : closureStep ag p c = p := by simp only [closureStep, hget]
    rw [hcs]
    refine ⟨[], by simp, by simp, by simp, fun h => by simpa using h, ?_⟩
    intro sym alts h
    exact absurd h (by simp)
  | some sym =>
    cases hlk : lookupA ag sym with
    | none =>
      have hcs : closureStep ag p c = p := by simp only [closureStep, hget, hlk]
      rw [hcs]
      refine ⟨[], by simp, by simp, by simp, fun h => by simpa using h, ?_⟩
      intro sym' alts h hl
      obtain rfl : sym = sym' := Option.some.inj h
      rw [hlk] at hl
      exact absurd hl (by simp)
    | some alts =>
      have hcs : closureStep ag p c = alts.foldl (closureAdd sym) p := by
        simp only [closureStep, hget, hlk]
      rw [hcs]
      obtain ⟨adds, h1, h2, h3, h4, h5⟩ := closureAdd_fold_spec sym alts p
      refine ⟨adds, h1, h2, ?_, h4, ?_⟩
      · intro a ha
        obtain ⟨hi, hl, hr⟩ := h3 a ha
        exact ⟨hi, alts, by rw [hl]; exact hlk, hr⟩
      · intro sym' alts' h hl
        obtain rfl : sym = sym' := Option.some.inj h
        rw [hlk] at hl
        obtain rfl : alts = alts' := Option.some.inj hl
        exact h5

theorem closedAt_mono {ag : AugGrammar} {cs cs' : ConfigSet} {c : Config}
    (h : closedAt ag cs c) (hsub : cs ⊆ cs') : closedAt ag cs' c := by
  intro sym alts hget hlk r hr
  exact hsub (h sym alts hget hlk r hr)

/-- The invariant carried through a `closure` run started on `cs0`: the
current set extends `cs0` by this call's additions, whose condensed keys
are exactly the `condensed` list, distinct, and all of which are dot-0
instances of grammar alternatives. -/
def ClosureInv (ag : AugGrammar) (cs0 cs : ConfigSet) (cond : List String) : Prop :=
  ∃ adds, cs = cs0 ++ adds ∧ cond = adds.map keyOf ∧ cond.Nodup ∧
    ∀ a ∈ adds, a.index = 0 ∧ ∃ alts, lookupA ag a.lhs = some alts ∧ a.rhs ∈ alts

theorem closureAux_master (ag : AugGrammar) (cs0 : ConfigSet) :
    ∀ (fuel : Nat) (cs : ConfigSet) (cond : List String) (i : Nat) (out : ConfigSet),
    ClosureInv ag cs0 cs cond →
    (∀ j, j < i → ∀ c, cs.get? j = some c → closedAt ag cs c) →
    closureAux ag fuel cs cond i = some out →
    (∃ adds, out = cs0 ++ adds ∧ (adds.map keyOf).Nodup ∧
      ∀ a ∈ adds, a.index = 0 ∧ ∃ alts, lookupA ag a.lhs = some alts ∧ a.rhs ∈ alts) ∧
    (∀ c ∈ out, closedAt ag out c) := by
  intro fuel
  induction fuel with
  | zero =>
    intro cs cond i out hinv hproc hrun
    cases hget : cs.get? i with
    | none =>
      rw [closureAux, hget] at hrun
      obtain rfl : cs = out := Option.some.inj hrun
      obtain ⟨adds, hcs, hcond, hnd, hprov⟩ := hinv
      have hlen : cs.length ≤ i := List.get?_eq_none.mp hget
      refine ⟨⟨adds, hcs, by rw [← hcond]; exact hnd, hprov⟩, ?_⟩
      intro c hc
      obtain ⟨j, hj⟩ := List.mem_iff_get?.mp hc
      have hji : j < i := by
        have : j < cs.length := by
          obtain ⟨hlt, -⟩ := List.get?_eq_some.mp hj
          exact hlt
        omega
      exact hproc j hji c hj
    | some c =>
      rw [closureAux, hget] at hrun
      exact absurd hrun (by simp)
  | succ f ih =>
    intro cs cond i out hinv hproc hrun
    cases hget : cs.get? i with
    | none =>
      rw [closureAux, hget] at hrun
      obtain rfl : cs = out := Option.some.inj hrun
      obtain ⟨adds, hcs, hcond, hnd, hprov⟩ := hinv
      have hlen : cs.length ≤ i := List.get?_eq_none.mp hget
      refine ⟨⟨adds, hcs, by rw [← hcond]; exact hnd, hprov⟩, ?_⟩
      intro c hc
      obtain ⟨j, hj⟩ := List.mem_iff_get?.mp hc
      have hji : j < i := by
        have : j < cs.length := by
          obtain ⟨hlt, -⟩ := List.get?_eq_some.mp hj
          exact hlt
        omega
      exact hproc j hji c hj
    | some c =>
      rw [closureAux, hget] at hrun
      have hrun' : closureAux ag f (closureStep ag (cs, cond) c).1
          (closureStep ag (cs, cond) c).2 (i + 1) = some out := hrun
      obtain ⟨adds1, hp1, hp2, hprov1, hnd1, hclo1⟩ := closureStep_spec ag (cs, cond) c
      obtain ⟨adds, hcs, hcond, hnd, hprov⟩ := hinv
      have hilt : i < cs.length := by
        obtain ⟨hlt, -⟩ := List.get?_eq_some.mp hget
        exact hlt
      have hinv' : ClosureInv ag cs0 (closureStep ag (cs, cond) c).1
          (closureStep ag (cs, cond) c).2 := by
        refine ⟨adds ++ adds1, ?_, ?_, ?_, ?_⟩
        · rw [hp1, hcs, List.append_assoc]
        · rw [hp2, hcond, List.map_append]
        · exact hnd1 hnd
        · intro a ha
          rcases List.mem_append.mp ha with ha | ha
          · exact hprov a ha
          · exact hprov1 a ha
      have hsub : cs ⊆ (closureStep ag (cs, cond) c).1 := by
        rw [hp1]; exact List.subset_append_left _ _
      have hkey_mem : ∀ sym alts, c.rhs.get? c.index = some sym →
          lookupA ag sym = some alts → ∀ r ∈ alts,
            (⟨sym, r, 0⟩ : Config) ∈ (closureStep ag (cs, cond) c).1 := by
        intro sym alts hg hl r hr
        have hk : condense sym r ∈ (closureStep ag (cs, cond) c).2 := hclo1 sym alts hg hl r hr
        obtain ⟨adds', hcs', hcond', hnd', hprov'⟩ := hinv'
        rw [hcond'] at hk
        obtain ⟨a, ha, hka⟩ := List.mem_map.mp hk
        obtain ⟨hidx, -⟩ := hprov' a ha
        have hlr : a.lhs = sym ∧ a.rhs = r := condense_inj hka
        have haeq : a = (⟨sym, r, 0⟩ : Config) := by
          obtain ⟨al, ar, ai⟩ := a
          simp only [Config.mk.injEq]
          exact ⟨hlr.1, hlr.2, hidx⟩
        rw [← haeq, hcs']
        exact List.mem_append_right _ ha
      have hproc' : ∀ j, j < i + 1 → ∀ c',
          (closureStep ag (cs, cond) c).1.get? j = some c' →
            closedAt ag (closureStep ag (cs, cond) c).1 c' := by
        intro j hj c' hj'
        have hjlt : j < cs.length := by omega
        have hjcs : cs.get? j = some c' := by
          rw [hp1] at hj'
          rwa [List.get?_append hjlt] at hj'
        by_cases hji : j < i
        · exact closedAt_mono (hproc j hji c' hjcs) hsub
        · have : j = i := by omega
          subst this
          rw [hget] at hjcs
          obtain rfl : c = c' := Option.some.inj hjcs
          intro sym alts hg hl r hr
          exact hkey_mem sym alts hg hl r hr
      exact ih _ _ _ _ hinv' hproc' hrun'

/-- The fuel bound `closureFuel` is sufficient: the scan index gains one
per iteration while the set can grow only by as many configurations as
there are distinct admissible condensed keys. -/
theorem closureAux_enough (ag : AugGrammar) :
    ∀ (fuel : Nat) (cs : ConfigSet) (cond : List String) (i : Nat),
    cond.Nodup → (∀ s ∈ cond, s ∈ allProdStrings ag) →
    (cs.length - i) + ((allProdStrings ag).dedup.length - cond.length) ≤ fuel →
    ∃ out, closureAux ag fuel cs cond i = some out := by
  intro fuel
  induction fuel with
  | zero =>
    intro cs cond i hn hs hb
    cases hget : cs.get? i with
    | none => exact ⟨cs, by rw [closureAux, hget]⟩
    | some c =>
      exfalso
      have hilt : i < cs.length := by
        obtain ⟨hlt, -⟩ := List.get?_eq_some.mp hget
        exact hlt
      omega
  | succ f ih =>
    intro cs cond i hn hs hb
    cases hget : cs.get? i with
    | none => exact ⟨cs, by rw [closureAux, hget]⟩
    | some c =>
      have hilt : i < cs.length := by
        obtain ⟨hlt, -⟩ := List.get?_eq_some.mp hget
        exact hlt
      obtain ⟨adds1, hp1, hp2, hprov1, hnd1, -⟩ := closureStep_spec ag (cs, cond) c
      have hn' : (closureStep ag (cs, cond) c).2.Nodup := hnd1 hn
      have hs' : ∀ s ∈ (closureStep ag (cs, cond) c).2, s ∈ allProdStrings ag := by
        intro s hsmem
        rw [hp2] at hsmem
        rcases List.mem_append.mp hsmem with h | h
        · exact hs s h
        · obtain ⟨a, ha, hka⟩ := List.mem_map.mp h
          obtain ⟨-, alts, hl, hr⟩ := hprov1 a ha
          rw [← hka]
          exact mem_allProdStrings hl hr
      have hcard : (closureStep ag (cs, cond) c).2.length ≤
          (allProdStrings ag).dedup.length := nodup_length_le_dedup hn' hs'
      have hb' : ((closureStep ag (cs, cond) c).1.length - (i + 1)) +
          ((allProdStrings ag).dedup.length - (closureStep ag (cs, cond) c).2.length) ≤ f := by
        have hl1 : (closureStep ag (cs, cond) c).1.length = cs.length + adds1.length := by
          rw [hp1, List.length_append]
        have hl2 : (closureStep ag (cs, cond) c).2.length = cond.length + adds1.length := by
          rw [hp2, List.length_append, List.length_map]
        omega
      obtain ⟨out, hout⟩ := ih _ _ _ hn' hs' hb'
      exact ⟨out, by rw [closureAux, hget]; exact hout⟩

/-- More fuel never changes a `closureAux` result that was reached. -/
theorem closureAux_mono (ag : AugGrammar) :
    ∀ (fuel extra : Nat) (cs : ConfigSet) (cond : List String) (i : Nat) (out : ConfigSet),
    closureAux ag fuel cs cond i = some out →
    closureAux ag (fuel + extra) cs cond i = some out := by
  intro fuel
  induction fuel with
  | zero =>
    intro extra cs cond i out h
    cases hget : cs.get? i with
    | none =>
      rw [closureAux, hget] at h
      rw [closureAux, hget]
      exact h
    | some c =>
      rw [closureAux, hget] at h
      exact absurd h (by simp)
  | succ f ih =>
    intro extra cs cond i out h
    cases hget : cs.get? i with
    | none =>
      rw [closureAux, hget] at h
      rw [closureAux, hget]
      exact h
    | some c =>
      rw [closureAux, hget] at h
      have hrw : f + 1 + extra = (f + extra) + 1 := by omega
      rw [hrw, closureAux, hget]
      exact ih extra _ _ _ _ h

/-- `closure` terminates on every input: with the computed budget (or any
larger one) the loop reaches the end of the (extended) set, and the result
is `closureRun`. -/
theorem closureRun_terminates (ag : AugGrammar) (cs : ConfigSet) (extra : Nat) :
    closureAux ag (closureFuel ag cs + extra) cs [] 0 = some (closureRun ag cs) := by
  obtain ⟨out, hout⟩ := closureAux_enough ag (closureFuel ag cs) cs [] 0
    (by simp) (by simp) (by simp [closureFuel])
  have heq : closureRun ag cs = out := by rw [closureRun, hout]; rfl
  rw [heq]
  exact closureAux_mono ag _ extra _ _ _ _ hout

/-- The collected behaviour of one `closure` call: the input list is
extended in place (it is an initial segment of the result); the additions
are dot-0 instances of grammar alternatives with pairwise-distinct
condensed keys; and the result is closed (for every configuration with a
non-terminal after its dot, every alternative occurs at dot 0). -/
theorem closureRun_spec (ag : AugGrammar) (cs : ConfigSet) :
    (∃ adds, closureRun ag cs = cs ++ adds ∧ (adds.map keyOf).Nodup ∧
      ∀ a ∈ adds, a.index = 0 ∧ ∃ alts, lookupA ag a.lhs = some alts ∧ a.rhs ∈ alts) ∧
    (∀ c ∈ closureRun ag cs, closedAt ag (closureRun ag cs) c) := by
  have hout : closureAux ag (closureFuel ag cs) cs [] 0 = some (closureRun ag cs) := by
    have := closureRun_terminates ag cs 0
    simpa using this
  exact closureAux_master ag cs _ cs [] 0 (closureRun ag cs)
    ⟨[], by simp, by simp, by simp, by simp⟩
    (fun j hj => absurd hj (Nat.not_lt_zero j)) hout

/-- `closure` preserves the head of a non-empty input (used for the state
dedup argument: every successor set starts with an advanced
configuration). -/
theorem closureRun_head (ag : AugGrammar) (c : Config) (cs : ConfigSet) :
    ∃ t, closureRun ag (c :: cs) = c :: t := by
  obtain ⟨⟨adds, hadds, -, -⟩, -⟩ := closureRun_spec ag (c :: cs)
  exact ⟨cs ++ adds, by rw [hadds]; simp⟩

/-! ## Lemmas: the automaton worklist -/

/-- A successor set is empty or starts with an advanced configuration
(dot at least 1): the advanced configurations are listed first and
`closure` only appends. -/
theorem successorF_shape (ag : AugGrammar) (set : ConfigSet) (sym : Nat) :
    successorF ag set sym = [] ∨
      ∃ c t, successorF ag set sym = c :: t ∧ 1 ≤ c.index := by
  have hbody : successorF ag set sym =
      (if (set.filterMap (fun c =>
          if c.rhs.get? c.index = some sym then some { c with index := c.index + 1 }
          else none)).length > 0
       then closureRun ag (set.filterMap (fun c =>
          if c.rhs.get? c.index = some sym then some { c with index := c.index + 1 }
          else none))
       else []) := rfl
  cases hadv : set.filterMap (fun c =>
      if c.rhs.get? c.index = some sym then some { c with index := c.index + 1 } else none) with
  | nil =>
    left
    rw [hbody, hadv]
    simp
  | cons a t =>
    right
    have hmem : a ∈ set.filterMap (fun c =>
        if c.rhs.get? c.index = some sym then some { c with index := c.index + 1 }
        else none) := by rw [hadv]; simp
    obtain ⟨c0, -, hf⟩ := List.mem_filterMap.mp hmem
    have hidx : 1 ≤ a.index := by
      by_cases hc : c0.rhs.get? c0.index = some sym
      · rw [if_pos hc] at hf
        obtain rfl : { c0 with index := c0.index + 1 } = a := Option.some.inj hf
        simp
      · rw [if_neg hc] at hf
        exact absurd hf (by simp)
    have hsucc : successorF ag set sym = closureRun ag (a :: t) := by
      rw [hbody, hadv]
      simp
    rw [hsucc]
    obtain ⟨t', ht'⟩ := closureRun_head ag a t
    exact ⟨a, t', ht', hidx⟩

/-- Behaviour of one successor probe of the worklist pass. -/
theorem expandSym_spec (ag : AugGrammar) (set : ConfigSet)
    (p : List ConfigSet × List String) (sym : Nat) :
    ∃ adds, expandSym ag set p sym = (p.1 ++ adds, p.2 ++ adds.map serializeSet) ∧
      (∀ t ∈ adds, t = successorF ag set sym ∧ t ≠ []) ∧
      (p.2.Nodup → (expandSym ag set p sym).2.Nodup) ∧
      (successorF ag set sym ≠ [] →
        serializeSet (successorF ag set sym) ∈ (expandSym ag set p sym).2) := by
  by_cases hc : serializeSet (successorF ag set sym) ∉ p.2 ∧ successorF ag set sym ≠ []
  · have hstep : expandSym ag set p sym =
        (p.1 ++ [successorF ag set sym], p.2 ++ [serializeSet (successorF ag set sym)]) := by
      simp only [expandSym, if_pos hc]
    refine ⟨[successorF ag set sym], by rw [hstep]; simp, ?_, ?_, ?_⟩
    · intro t ht
      simp only [List.mem_singleton] at ht
      exact ⟨ht, by rw [ht]; exact hc.2⟩
    · intro hn
      rw [hstep]
      refine List.Nodup.append hn (by simp) ?_
      intro b hb1 hb2
      simp only [List.mem_singleton] at hb2
      subst hb2
      exact hc.1 hb1
    · intro _
      rw [hstep]
      simp
  · have hstep : expandSym ag set p sym = p := by
      simp only [expandSym, if_neg hc]
    refine ⟨[], by rw [hstep]; simp, by simp, by rw [hstep]; exact id, ?_⟩
    intro hne
    rw [hstep]
    rcases Decidable.not_and_iff_or_not.mp hc with h | h
    · exact not_not.mp h
    · exact absurd hne (not_not.mp (by simpa using h))

/-- Behaviour of the probe fold over a symbol list. -/
theorem expandSym_fold_spec (ag : AugGrammar) (set : ConfigSet) :
    ∀ (syms : List Nat) (p : List ConfigSet × List String),
    ∃ adds, syms.foldl (expandSym ag set) p = (p.1 ++ adds, p.2 ++ adds.map serializeSet) ∧
      (∀ t ∈ adds, (∃ sym, t = successorF ag set sym) ∧ t ≠ []) ∧
      (p.2.Nodup → (syms.foldl (expandSym ag set) p).2.Nodup) ∧
      (∀ sym ∈ syms, successorF ag set sym ≠ [] →
        serializeSet (successorF ag set sym) ∈ (syms.foldl (expandSym ag set) p).2) := by
  intro syms
  induction syms with
  | nil =>
    intro p
    exact ⟨[], by simp, by simp, by exact id, by simp⟩
  | cons sym syms ih =>
    intro p
    obtain ⟨adds1, h1, h2, h3, h4⟩ := expandSym_spec ag set p sym
    obtain ⟨adds2, g1, g2, g3, g4⟩ := ih (expandSym ag set p sym)
    refine ⟨adds1 ++ adds2, ?_, ?_, ?_, ?_⟩
    · simp only [List.foldl_cons]
      rw [g1, h1]
      simp [List.append_assoc]
    · intro t ht
      rcases List.mem_append.mp ht with ht | ht
      · obtain ⟨he, hne⟩ := h2 t ht
        exact ⟨⟨sym, he⟩, hne⟩
      · exact g2 t ht
    · intro hn
      simp only [List.foldl_cons]
      exact g3 (h3 hn)
    · intro sym' hsym' hne
      simp only [List.foldl_cons]
      rcases List.mem_cons.mp hsym' with hsym' | hsym'
      · subst hsym'
        have hin := h4 hne
        rw [g1]
        exact List.mem_append_left _ hin
      · exact g4 sym' hsym' hne

/-- Behaviour of the config fold of `processState`, over any config list
probed against the fixed state `set`. -/
theorem processState_fold_spec (ag : AugGrammar) (set : ConfigSet) :
    ∀ (l : List Config) (p : List ConfigSet × List String),
    ∃ adds, l.foldl (fun p c => c.rhs.foldl (expandSym ag set) p) p =
        (p.1 ++ adds, p.2 ++ adds.map serializeSet) ∧
      (∀ t ∈ adds, (∃ sym, t = successorF ag set sym) ∧ t ≠ []) ∧
      (p.2.Nodup → (l.foldl (fun p c => c.rhs.foldl (expandSym ag set) p) p).2.Nodup) ∧
      (∀ cfg ∈ l, ∀ sym ∈ cfg.rhs, successorF ag set sym ≠ [] →
        serializeSet (successorF ag set sym) ∈
          (l.foldl (fun p c => c.rhs.foldl (expandSym ag set) p) p).2) := by
  intro l
  induction l with
  | nil =>
    intro p
    exact ⟨[], by simp, by simp, by exact id, by simp⟩
  | cons cfg cfgs ih =>
    intro p
    obtain ⟨adds1, h1, h2, h3, h4⟩ := expandSym_fold_spec ag set cfg.rhs p
    obtain ⟨adds2, g1, g2, g3, g4⟩ := ih (cfg.rhs.foldl (expandSym ag set) p)
    refine ⟨adds1 ++ adds2, ?_, ?_, ?_, ?_⟩
    · simp only [List.foldl_cons]
      rw [g1, h1]
      simp [List.append_assoc]
    · intro t ht
      rcases List.mem_append.mp ht with ht | ht
      · exact h2 t ht
      · exact g2 t ht
    · intro hn
      simp only [List.foldl_cons]
      exact g3 (h3 hn)
    · intro cfg' hcfg' sym hsym hne
      simp only [List.foldl_cons]
      rcases List.mem_cons.mp hcfg' with hcfg' | hcfg'
      · subst hcfg'
        have hin := h4 sym hsym hne
        rw [g1]
        exact List.mem_append_left _ hin
      · exact g4 cfg' hcfg' sym hsym hne

/-- Behaviour of processing one state of the worklist. -/
theorem processState_spec (ag : AugGrammar) (set : ConfigSet)
    (p : List ConfigSet × List String) :
    ∃ adds, processState ag set p = (p.1 ++ adds, p.2 ++ adds.map serializeSet) ∧
      (∀ t ∈ adds, (∃ sym, t = successorF ag set sym) ∧ t ≠ []) ∧
      (p.2.Nodup → (processState ag set p).2.Nodup) ∧
      (∀ cfg ∈ set, ∀ sym ∈ cfg.rhs, successorF ag set sym ≠ [] →
        serializeSet (successorF ag set sym) ∈ (processState ag set p).2) :=
  processState_fold_spec ag set set p

/-- The invariant carried through the worklist pass: the state list is the
initial state followed by the discovered states, whose serializations are
exactly the recorded `condensedConfigSets` (pairwise distinct), and every
discovered state starts with an advanced (dot at least 1) configuration. -/
def ExpandInv (s0 : ConfigSet) (cs : List ConfigSet) (cond : List String) : Prop :=
  ∃ tail, cs = s0 :: tail ∧ cond = tail.map serializeSet ∧ cond.Nodup ∧
    ∀ t ∈ tail, ∃ c r, t = c :: r ∧ 1 ≤ c.index

theorem expandAux_master (ag : AugGrammar) (s0 : ConfigSet) :
    ∀ (fuel : Nat) (cs : List ConfigSet) (cond : List String) (i : Nat)
      (out : List ConfigSet × List String),
    ExpandInv s0 cs cond →
    (∀ j, j < i → ∀ s, cs.get? j = some s → ∀ cfg ∈ s, ∀ sym ∈ cfg.rhs,
      successorF ag s sym ≠ [] → serializeSet (successorF ag s sym) ∈ cond) →
    expandAux ag fuel cs cond i = some out →
    ExpandInv s0 out.1 out.2 ∧
    (∀ s ∈ out.1, ∀ cfg ∈ s, ∀ sym ∈ cfg.rhs,
      successorF ag s sym ≠ [] → serializeSet (successorF ag s sym) ∈ out.2) := by
  intro fuel
  induction fuel with
  | zero =>
    intro cs cond i out hinv hproc hrun
    cases hget : cs.get? i with
    | none =>
      rw [expandAux, hget] at hrun
      obtain rfl : (cs, cond) = out := Option.some.inj hrun
      have hlen : cs.length ≤ i := List.get?_eq_none.mp hget
      refine ⟨hinv, ?_⟩
      intro s hs
      obtain ⟨j, hj⟩ := List.mem_iff_get?.mp hs
      have hji : j < i := by
        obtain ⟨hlt, -⟩ := List.get?_eq_some.mp hj
        have hlt' : j < cs.length := hlt
        omega
      exact hproc j hji s hj
    | some set =>
      rw [expandAux, hget] at hrun
      exact absurd hrun (by simp)
  | succ f ih =>
    intro cs cond i out hinv hproc hrun
    cases hget : cs.get? i with
    | none =>
      rw [expandAux, hget] at hrun
      obtain rfl : (cs, cond) = out := Option.some.inj hrun
      have hlen : cs.length ≤ i := List.get?_eq_none.mp hget
      refine ⟨hinv, ?_⟩
      intro s hs
      obtain ⟨j, hj⟩ := List.mem_iff_get?.mp hs
      have hji : j < i := by
        obtain ⟨hlt, -⟩ := List.get?_eq_some.mp hj
        have hlt' : j < cs.length := hlt
        omega
      exact hproc j hji s hj
    | some set =>
      rw [expandAux, hget] at hrun
      have hrun' : expandAux ag f (processState ag set (cs, cond)).1
          (processState ag set (cs, cond)).2 (i + 1) = some out := hrun
      obtain ⟨adds, hpeq, hshape, hnd1, hclo⟩ := processState_spec ag set (cs, cond)
      have hp1 : (processState ag set (cs, cond)).1 = cs ++ adds := by rw [hpeq]
      have hp2 : (processState ag set (cs, cond)).2 = cond ++ adds.map serializeSet := by
        rw [hpeq]
      obtain ⟨tail, hcs, hcond, hnd, hhead⟩ := hinv
      have hilt : i < cs.length := by
        obtain ⟨hlt, -⟩ := List.get?_eq_some.mp hget
        exact hlt
      have hinv' : ExpandInv s0 (processState ag set (cs, cond)).1
          (processState ag set (cs, cond)).2 := by
        refine ⟨tail ++ adds, ?_, ?_, ?_, ?_⟩
        · rw [hp1, hcs]
          simp
        · rw [hp2, hcond, List.map_append]
        · exact hnd1 hnd
        · intro t ht
          rcases List.mem_append.mp ht with ht | ht
          · exact hhead t ht
          · obtain ⟨⟨sym, hts⟩, htne⟩ := hshape t ht
            rcases successorF_shape ag set sym with h | ⟨c, r, hcr, hc⟩
            · rw [hts] at htne
              exact absurd h htne
            · exact ⟨c, r, by rw [hts, hcr], hc⟩
      have hproc' : ∀ j, j < i + 1 → ∀ s,
          (processState ag set (cs, cond)).1.get? j = some s →
          ∀ cfg ∈ s, ∀ sym ∈ cfg.rhs, successorF ag s sym ≠ [] →
            serializeSet (successorF ag s sym) ∈ (processState ag set (cs, cond)).2 := by
        intro j hj s hj'
        have hjlt : j < cs.length := by omega
        have hjcs : cs.get? j = some s := by
          rw [hp1] at hj'
          rwa [List.get?_append hjlt] at hj'
        by_cases hji : j < i
        · intro cfg hcfg sym hsym hne
          have := hproc j hji s hjcs cfg hcfg sym hsym hne
          rw [hp2]
          exact List.mem_append_left _ this
        · have : j = i := by omega
          subst this
          rw [hget] at hjcs
          obtain rfl : set = s := Option.some.inj hjcs
          exact hclo
      exact ih _ _ _ _ hinv' hproc' hrun'

/-- Consequences of a completed worklist run started from an initial state
whose first configuration has its dot at position 0: the recorded
serializations are exactly those of the discovered states; all state
serializations (initial state included) are pairwise distinct; and every
non-empty successor of a listed state is itself a listed state. -/
theorem expandRun_spec (ag : AugGrammar) (s0 : ConfigSet) (c0 : Config) (t0 : ConfigSet)
    (fuel : Nat) (out : List ConfigSet × List String)
    (h0 : s0 = c0 :: t0) (hidx0 : c0.index = 0)
    (hrun : expandAux ag fuel [s0] [] 0 = some out) :
    (∃ tail, out.1 = s0 :: tail ∧ out.2 = tail.map serializeSet) ∧
    (out.1.map serializeSet).Nodup ∧
    (∀ s ∈ out.1, ∀ cfg ∈ s, ∀ sym ∈ cfg.rhs,
      successorF ag s sym ≠ [] → successorF ag s sym ∈ out.1) := by
  obtain ⟨⟨tail, hcs, hcond, hnd, hhead⟩, hcomp⟩ := expandAux_master ag s0 fuel [s0] [] 0 out
    ⟨[], by simp, by simp, by simp, by simp⟩
    (fun j hj => absurd hj (Nat.not_lt_zero j)) hrun
  have hs0_ne : ∀ t ∈ tail, serializeSet s0 ≠ serializeSet t := by
    intro t ht hser
    obtain ⟨c, r, hcr, hc⟩ := hhead t ht
    have : s0 = t := serializeSet_inj hser
    rw [h0, hcr] at this
    have : c0 = c := (List.cons.injEq _ _ _ _ ▸ this).1
    rw [← this] at hc
    omega
  refine ⟨⟨tail, hcs, hcond⟩, ?_, ?_⟩
  · rw [hcs]
    simp only [List.map_cons, List.nodup_cons]
    constructor
    · intro hmem
      obtain ⟨t, ht, hser⟩ := List.mem_map.mp hmem
      exact hs0_ne t ht hser.symm
    · rw [← hcond]
      exact hnd
  · intro s hs cfg hcfg sym hsym hne
    have hser : serializeSet (successorF ag s sym) ∈ out.2 := hcomp s hs cfg hcfg sym hsym hne
    rw [hcond] at hser
    obtain ⟨t, ht, hts⟩ := List.mem_map.mp hser
    have : t = successorF ag s sym := serializeSet_inj hts
    rw [← this, hcs]
    exact List.mem_cons_of_mem _ ht

/-! ## Lemmas: first-writer-wins table rows -/

/-- Read a row slot: `false` is the terminal table `row[0]`, `true` the
non-terminal table `row[1]`. -/
def rowLookup (row : Row) (slot : Bool) (key : TKey) : Option Int :=
  if slot then lookupA row.t1 key else lookupA row.t0 key

theorem lookupA_append_one {α β : Type} [DecidableEq α] (l : List (α × β)) (k k' : α) (v : β) :
    lookupA (l ++ [(k, v)]) k' =
      match lookupA l k' with
      | some x => some x
      | none => if k = k' then some v else none := by
  induction l with
  | nil => simp [lookupA]
  | cons p ps ih =>
    by_cases hp : p.1 = k'
    · simp [lookupA, hp]
    · simp only [List.cons_append, lookupA, if_neg hp]
      exact ih

theorem lookupA_insIfAbsent {α : Type} [DecidableEq α] (l : List (α × Int)) (k k' : α) (v : Int) :
    lookupA (insIfAbsent l k v) k' =
      match lookupA l k' with
      | some x => some x
      | none => if k = k' then some v else none := by
  unfold insIfAbsent
  by_cases h : lookupA l k = none
  · rw [if_pos h, lookupA_append_one]
    cases hx : lookupA l k' <;> simp [hx]
  · rw [if_neg h]
    cases h' : lookupA l k' with
    | some x => simp [h']
    | none =>
      by_cases hk : k = k'
      · subst hk
        exact absurd h' h
      · simp [hk, h']

theorem rowLookup_rowIns (row : Row) (c : Cell) (slot : Bool) (key : TKey) :
    rowLookup (rowIns row c) slot key =
      if c.slot = slot ∧ c.key = key then
        match rowLookup row slot key with
        | some a => some a
        | none => some c.action
      else rowLookup row slot key := by
  obtain ⟨cslot, ckey, caction⟩ := c
  cases cslot <;> cases slot
  case false.false =>
    by_cases hk : ckey = key
    · subst hk
      cases h' : lookupA row.t0 ckey <;>
        simp [rowIns, rowLookup, lookupA_insIfAbsent, h']
    · cases h' : lookupA row.t0 key <;>
        simp [rowIns, rowLookup, lookupA_insIfAbsent, h', hk]
  case false.true =>
    simp [rowIns, rowLookup]
  case true.false =>
    simp [rowIns, rowLookup]
  case true.true =>
    by_cases hk : ckey = key
    · subst hk
      cases h' : lookupA row.t1 ckey <;>
        simp [rowIns, rowLookup, lookupA_insIfAbsent, h']
    · cases h' : lookupA row.t1 key <;>
        simp [rowIns, rowLookup, lookupA_insIfAbsent, h', hk]

theorem rowIns_fold_lookup : ∀ (cells : List Cell) (row : Row) (slot : Bool) (key : TKey),
    rowLookup (cells.foldl rowIns row) slot key =
      match rowLookup row slot key with
      | some a => some a
      | none =>
        (cells.find? (fun c => decide (c.slot = slot) && decide (c.key = key))).map Cell.action := by
  intro cells
  induction cells with
  | nil =>
    intro row slot key
    cases h : rowLookup row slot key <;> simp [h]
  | cons c cs ih =>
    intro row slot key
    simp only [List.foldl_cons]
    rw [ih]
    rw [rowLookup_rowIns]
    by_cases hmatch : c.slot = slot ∧ c.key = key
    · rw [if_pos hmatch]
      have hfind : (c :: cs).find? (fun c => decide (c.slot = slot) && decide (c.key = key)) =
          some c := by
        rw [List.find?_cons_of_pos]
        simp [hmatch.1, hmatch.2]
      cases h : rowLookup row slot key with
      | some a => simp [h]
      | none => simp [h, hfind]
    · rw [if_neg hmatch]
      have hfind : (c :: cs).find? (fun c => decide (c.slot = slot) && decide (c.key = key)) =
          cs.find? (fun c => decide (c.slot = slot) && decide (c.key = key)) := by
        rw [List.find?_cons_of_neg]
        simp only [Bool.and_eq_true, decide_eq_true_eq]
        intro h
        exact hmatch ⟨h.1, h.2⟩
      rw [hfind]

/-! ## Lemmas: longest-match selection -/

/-- The match a table entry contributes: a positive (shift) entry that
matches yields its matched text and successor. -/
def entryMatch (tokens : List Token) (stream : String) (index : Nat)
    (e : TKey × Int) : Option (String × Int) :=
  if e.2 > 0 then (tkExec tokens e.1 stream index).map (fun m => (m, e.2)) else none

/-- All matches contributed by an entry list, in order. -/
def shiftMatches (tokens : List Token) (stream : String) (index : Nat)
    (entries : List (TKey × Int)) : List (String × Int) :=
  entries.filterMap (entryMatch tokens stream index)

/-- The strictly-longer-wins selection step (ties keep the current). -/
def foldSel (cur : Option (String × Int)) (m : String × Int) : Option (String × Int) :=
  match cur with
  | none => some m
  | some l => if m.1.length > l.1.length then some m else some l

theorem flStep_longest (tokens : List Token) (stream : String) (index : Nat)
    (acc : FLAcc) (e : TKey × Int) :
    (flStep tokens stream index acc e).longest =
      match entryMatch tokens stream index e with
      | none => acc.longest
      | some m => foldSel acc.longest m := by
  by_cases hpos : e.2 > 0
  · simp only [flStep, if_pos hpos, entryMatch, if_pos hpos]
    cases hex : tkExec tokens e.1 stream index with
    | none => simp
    | some m =>
      simp only [Option.map_some']
      cases hl : acc.longest with
      | none => simp [foldSel]
      | some l =>
        simp only [foldSel]
        by_cases hlen : m.length > l.1.length
        · simp [hlen, hl]
        · simp [hlen, hl]
  · simp only [flStep, if_neg hpos, entryMatch, if_neg hpos]
    by_cases hneg : e.2 < 0
    · simp [if_pos hneg]
    · by_cases hend : stream.length = index
      · simp [if_neg hneg, if_pos hend]
      · simp [if_neg hneg, if_neg hend]

theorem flFold_longest (tokens : List Token) (stream : String) (index : Nat) :
    ∀ (entries : List (TKey × Int)) (acc : FLAcc),
    (entries.foldl (flStep tokens stream index) acc).longest =
      (shiftMatches tokens stream index entries).foldl foldSel acc.longest := by
  intro entries
  induction entries with
  | nil => intro acc; simp [shiftMatches]
  | cons e es ih =>
    intro acc
    simp only [List.foldl_cons, shiftMatches, List.filterMap_cons]
    cases hm : entryMatch tokens stream index e with
    | none =>
      rw [ih]
      have : (flStep tokens stream index acc e).longest = acc.longest := by
        rw [flStep_longest, hm]
      simp only [shiftMatches] at this ⊢
      rw [this]
    | some m =>
      rw [ih]
      have : (flStep tokens stream index acc e).longest = foldSel acc.longest m := by
        rw [flStep_longest, hm]
      simp only [shiftMatches] at this ⊢
      rw [this]
      simp

/-- The selection over a non-empty match list yields the first match of
maximal length: it is a member, it dominates every match, and every match
strictly before it is strictly shorter. -/
theorem foldSel_some : ∀ (rest : List (String × Int)) (l0 : String × Int),
    ∃ l, rest.foldl foldSel (some l0) = some l ∧
      l ∈ l0 :: rest ∧
      (∀ m ∈ l0 :: rest, m.1.length ≤ l.1.length) ∧
      ∃ fore aft, l0 :: rest = fore ++ l :: aft ∧ ∀ m ∈ fore, m.1.length < l.1.length := by
  intro rest
  induction rest with
  | nil =>
    intro l0
    refine ⟨l0, by simp, by simp, by simp, [], [], by simp, by simp⟩
  | cons m rest' ih =>
    intro l0
    by_cases hgt : m.1.length > l0.1.length
    · have hstep : foldSel (some l0) m = some m := by simp [foldSel, hgt]
      obtain ⟨l, h1, h2, h3, fore, aft, h4, h5⟩ := ih m
      have hml : m.1.length ≤ l.1.length := h3 m (by simp)
      refine ⟨l, ?_, ?_, ?_, l0 :: fore, aft, ?_, ?_⟩
      · simp only [List.foldl_cons, hstep]
        exact h1
      · rcases List.mem_cons.mp h2 with h | h
        · subst h; simp
        · simp [List.mem_cons_of_mem _ h]
      · intro x hx
        rcases List.mem_cons.mp hx with h | h
        · subst h; omega
        · exact h3 x h
      · rw [List.cons_append, ← h4]
      · intro x hx
        rcases List.mem_cons.mp hx with h | h
        · subst h; omega
        · exact h5 x h
    · have hstep : foldSel (some l0) m = some l0 := by simp [foldSel, hgt]
      obtain ⟨l, h1, h2, h3, fore, aft, h4, h5⟩ := ih l0
      have hm_le : m.1.length ≤ l0.1.length := by omega
      have hl0_le : l0.1.length ≤ l.1.length := h3 l0 (by simp)
      refine ⟨l, ?_, ?_, ?_, ?_⟩
      · simp only [List.foldl_cons, hstep]
        exact h1
      · rcases List.mem_cons.mp h2 with h | h
        · subst h; simp
        · simp [List.mem_cons_of_mem _ (List.mem_cons_of_mem _ h)]
      · intro x hx
        rcases List.mem_cons.mp hx with h | h
        · subst h; exact hl0_le
        · rcases List.mem_cons.mp h with h' | h'
          · subst h'; omega
          · exact h3 x (List.mem_cons_of_mem _ h')
      · cases fore with
        | nil =>
          simp only [List.nil_append, List.cons.injEq] at h4
          refine ⟨[], m :: rest', ?_, by simp⟩
          rw [List.nil_append, h4.1]
        | cons f0 fore' =>
          simp only [List.cons_append, List.cons.injEq] at h4
          obtain ⟨hf0, hrest⟩ := h4
          refine ⟨l0 :: m :: fore', aft, ?_, ?_⟩
          · rw [hrest]
            simp
          · intro x hx
            rcases List.mem_cons.mp hx with h | h
            · rw [h, hf0]
              exact h5 f0 (by simp)
            · rcases List.mem_cons.mp h with h' | h'
              · have hl0lt : l0.1.length < l.1.length := by
                  rw [hf0]
                  exact h5 f0 (by simp)
                rw [h']
                omega
              · exact h5 x (List.mem_cons_of_mem _ h')

/-- The body of `findLongest` with its `let`-bindings expanded. -/
theorem findLongest_body (tokens : List Token) (row0 : List (TKey × Int))
    (stream : String) (index : Nat) :
    findLongest tokens row0 stream index =
      (match ((iterOrder row0).foldl (flStep tokens stream index)
          ⟨none, none⟩).longest with
       | some l =>
         (some (l.2, some l.1), index + l.1.length +
           countSpaces (strDrop stream (index + l.1.length)))
       | none =>
         match ((iterOrder row0).foldl (flStep tokens stream index)
             ⟨none, none⟩).reduction with
         | some r => (some (r, none), index)
         | none => (none, index)) := rfl

/-- When some shift entry matches, `findLongest` ignores any recorded
reduce/accept candidate and returns a shift: the first match of maximal
length, with the cursor advanced by the match and the following spaces. -/
theorem findLongest_of_matches (tokens : List Token) (row0 : List (TKey × Int))
    (stream : String) (index : Nat)
    (hne : shiftMatches tokens stream index (iterOrder row0) ≠ []) :
    ∃ l, l ∈ shiftMatches tokens stream index (iterOrder row0) ∧
      (∀ m ∈ shiftMatches tokens stream index (iterOrder row0), m.1.length ≤ l.1.length) ∧
      (∃ fore aft, shiftMatches tokens stream index (iterOrder row0) = fore ++ l :: aft ∧
        ∀ m ∈ fore, m.1.length < l.1.length) ∧
      findLongest tokens row0 stream index =
        (some (l.2, some l.1), index + l.1.length +
          countSpaces (strDrop stream (index + l.1.length))) := by
  cases hms : shiftMatches tokens stream index (iterOrder row0) with
  | nil => exact absurd hms hne
  | cons m0 ms =>
    obtain ⟨l, h1, h2, h3, fore, aft, h4, h5⟩ := foldSel_some ms m0
    have hacc : ((iterOrder row0).foldl (flStep tokens stream index)
        ⟨none, none⟩).longest = some l := by
      rw [flFold_longest, hms]
      simpa [foldSel] using h1
    refine ⟨l, h2, h3, ⟨fore, aft, h4, h5⟩, ?_⟩
    rw [findLongest_body, hacc]

/-- The three shapes a `findLongest` result can take; in the reduce and
fail shapes the cursor is unchanged (whitespace is skipped only after a
shift). -/
theorem findLongest_cases (tokens : List Token) (row0 : List (TKey × Int))
    (stream : String) (index : Nat) :
    (∃ l : String × Int, findLongest tokens row0 stream index =
        (some (l.2, some l.1), index + l.1.length +
          countSpaces (strDrop stream (index + l.1.length)))) ∨
    (∃ r : Int, findLongest tokens row0 stream index = (some (r, none), index)) ∨
    findLongest tokens row0 stream index = (none, index) := by
  rw [findLongest_body]
  cases hl : ((iterOrder row0).foldl (flStep tokens stream index) ⟨none, none⟩).longest with
  | some l => exact Or.inl ⟨l, rfl⟩
  | none =>
    cases hr : ((iterOrder row0).foldl (flStep tokens stream index) ⟨none, none⟩).reduction with
    | some r => exact Or.inr (Or.inl ⟨r, rfl⟩)
    | none => exact Or.inr (Or.inr rfl)

theorem findLongest_reduce_case {tokens : List Token} {row0 : List (TKey × Int)}
    {stream : String} {index : Nat} {r : Int}
    (h : (findLongest tokens row0 stream index).1 = some (r, none)) :
    findLongest tokens row0 stream index = (some (r, none), index) := by
  rcases findLongest_cases tokens row0 stream index with ⟨l, hl⟩ | ⟨r', hr⟩ | hn
  · rw [hl] at h
    simp at h
  · rw [hr] at h
    obtain rfl : r' = r := by simpa using h
    exact hr
  · rw [hn] at h
    simp at h

theorem findLongest_none_case {tokens : List Token} {row0 : List (TKey × Int)}
    {stream : String} {index : Nat}
    (h : (findLongest tokens row0 stream index).1 = none) :
    findLongest tokens row0 stream index = (none, index) := by
  rcases findLongest_cases tokens row0 stream index with ⟨l, hl⟩ | ⟨r', hr⟩ | hn
  · rw [hl] at h
    simp at h
  · rw [hr] at h
    simp at h
  · exact hn

theorem findLongest_shift_case {tokens : List Token} {row0 : List (TKey × Int)}
    {stream : String} {index : Nat} {a : Int} {v : String}
    (h : (findLongest tokens row0 stream index).1 = some (a, some v)) :
    findLongest tokens row0 stream index =
      (some (a, some v), index + v.length +
        countSpaces (strDrop stream (index + v.length))) := by
  rcases findLongest_cases tokens row0 stream index with ⟨l, hl⟩ | ⟨r', hr⟩ | hn
  · rw [hl] at h
    simp only [Option.some.injEq, Prod.mk.injEq] at h
    obtain ⟨h1, h2⟩ := h
    subst h1
    subst h2
    exact hl
  · rw [hr] at h
    simp at h
  · rw [hn] at h
    simp at h

/-! ## Lemmas: JS splice on the last `k` elements -/

theorem jsSpliceRest_last {α : Type} (l : List α) (k : Nat) (hk : k ≤ l.length) :
    jsSpliceRest l ((l.length : Int) - k) k = l.take (l.length - k) := by
  have h0 : ¬((l.length : Int) - k < 0) := by omega
  have hbody : jsSpliceRest l ((l.length : Int) - k) k =
      l.take (min ((l.length : Int) - k).toNat l.length) ++
        l.drop (min ((l.length : Int) - k).toNat l.length + k) := by
    unfold jsSpliceRest
    rw [if_neg h0]
  rw [hbody]
  have hs : ((l.length : Int) - k).toNat = l.length - k := by omega
  rw [hs]
  have hmin : min (l.length - k) l.length = l.length - k := by omega
  rw [hmin]
  have hdrop : l.drop (l.length - k + k) = [] := by
    apply List.drop_eq_nil_of_le
    omega
  rw [hdrop, List.append_nil]

theorem jsSpliceRemoved_last {α : Type} (l : List α) (k : Nat) (hk : k ≤ l.length) :
    jsSpliceRemoved l ((l.length : Int) - k) k = l.drop (l.length - k) := by
  have h0 : ¬((l.length : Int) - k < 0) := by omega
  have hbody : jsSpliceRemoved l ((l.length : Int) - k) k =
      (l.drop (min ((l.length : Int) - k).toNat l.length)).take k := by
    unfold jsSpliceRemoved
    rw [if_neg h0]
  rw [hbody]
  have hs : ((l.length : Int) - k).toNat = l.length - k := by omega
  rw [hs]
  have hmin : min (l.length - k) l.length = l.length - k := by omega
  rw [hmin]
  apply List.take_of_length_le
  rw [List.length_drop]
  omega

theorem drop_last_length {α : Type} (l : List α) (k : Nat) (hk : k ≤ l.length) :
    (l.drop (l.length - k)).length = k := by
  rw [List.length_drop]
  omega

/-! ## Lemmas: the parse-loop branches -/

/-- The shift branch: push the matched value and the shift target; the
cursor was already advanced (and whitespace skipped) by `findLongest`. -/
theorem parseStep_shift (g : Grammar) (stream : String) (st : PState) (cur : Int) (row : Row)
    (ti : Int) (v : String) (i' : Nat)
    (hcur : st.stack.getLast? = some cur)
    (hneg : ¬cur < 0)
    (hrow : g.table.get? cur.toNat = some row)
    (hfl : findLongest g.tokens row.t0 stream st.index = (some (ti, some v), i'))
    (hti : ti > 0) :
    parseStep g stream st = .cont ⟨i', st.stack ++ [ti], st.values ++ [v]⟩ := by
  simp only [parseStep, hcur, hrow, hfl, if_neg hneg, if_pos hti]

/-- The failure branch: no shift matched and no reduce/accept was
recorded; the thrown value is the array-to-string coercion
`[0xA1, '"'+excerpt] + '"'`, the excerpt being 40 characters of the
unconsumed remainder. -/
theorem parseStep_fail (g : Grammar) (stream : String) (st : PState) (cur : Int) (row : Row)
    (hcur : st.stack.getLast? = some cur)
    (hneg : ¬cur < 0)
    (hrow : g.table.get? cur.toNat = some row)
    (hfl : findLongest g.tokens row.t0 stream st.index = (none, st.index)) :
    parseStep g stream st =
      .fail (.strv ("161," ++ "\"" ++ jsSubstr stream st.index 40 ++ "\"")) := by
  simp only [parseStep, hcur, hrow, hfl, if_neg hneg]

/-- The accept branch: action `0` with the cursor at the end of input
returns the value stack as it stands. -/
theorem parseStep_accept (g : Grammar) (stream : String) (st : PState) (cur : Int) (row : Row)
    (hcur : st.stack.getLast? = some cur)
    (hneg : ¬cur < 0)
    (hrow : g.table.get? cur.toNat = some row)
    (hfl : findLongest g.tokens row.t0 stream st.index = (some (0, none), st.index)) :
    parseStep g stream st = .accept st.values := by
  simp only [parseStep, hcur, hrow, hfl, if_neg hneg]
  norm_num

/-- The reduce branch: pop exactly `rule[1]` entries from the state stack
and push the goto target; the value stack is touched only when the
production has an action, in which case the last `rule[1]` values are
passed to it, in order, and replaced by its single result. -/
theorem parseStep_reduce (g : Grammar) (stream : String) (st : PState) (cur top gv : Int)
    (row row2 : Row) (ti : Int) (lhs k : Nat)
    (hcur : st.stack.getLast? = some cur)
    (hneg : ¬cur < 0)
    (hrow : g.table.get? cur.toNat = some row)
    (hfl : findLongest g.tokens row.t0 stream st.index = (some (ti, none), st.index))
    (hti : ti < 0)
    (hprod : g.productions.get? ((ti + 1) * (-1)).toNat = some (lhs, k))
    (hks : k ≤ st.stack.length)
    (hkv : k ≤ st.values.length)
    (htop : (st.stack.take (st.stack.length - k)).getLast? = some top)
    (htneg : ¬top < 0)
    (hgrow : g.table.get? top.toNat = some row2)
    (hgoto : lookupA row2.t1 (TKey.num lhs) = some gv)
    (hgv : gv ≠ 0) :
    parseStep g stream st = .cont ⟨st.index,
      st.stack.take (st.stack.length - k) ++ [gv],
      match lookupA g.actions ((ti + 1) * (-1)).toNat with
      | some f =>
        st.values.take (st.values.length - k) ++ [f (st.values.drop (st.values.length - k))]
      | none => st.values⟩ := by
  have hng : ¬ti > 0 := by omega
  simp only [parseStep, hcur, hrow, hfl, if_neg hneg, if_neg hng, if_pos hti, hprod,
    jsSpliceRest_last st.stack k hks, jsSpliceRest_last st.values k hkv,
    jsSpliceRemoved_last st.values k hkv, htop, if_neg htneg, hgrow, hgoto, if_pos hgv]

/-- Propagation of a thrown parse error through the loop's `catch`. -/
theorem parseLoop_fail (g : Grammar) (stream : String) (fuel : Nat) (st : PState)
    (e : JsThrown) (h : parseStep g stream st = .fail e) :
    parseLoop g stream (fuel + 1) st = .error (displayError e) := by
  simp only [parseLoop, h]

/-- `displayError` rethrows a string starting with a character other than
`'0'` unchanged (the only single-character key in the error table is
`"0"`). -/
theorem displayError_choked (s : String) :
    displayError (.strv ("161," ++ s)) = .str ("161," ++ s) := rfl

/-- Rendering of the undefined-non-terminal error `[0x10, name]`: the
template is instantiated with `arguments[0]`, the string coercion of
`[name]`, which is `name` itself. -/
theorem render_undefined (name : String) :
    displayError (.arr 0x10 [name]) =
      .str ("The non-terminal \"" ++ name ++ "\" is not defined in the grammar.") := rfl

/-! ## Concrete grammars used by the claims -/

/-- A grammar accepting exactly the literal `"x"`. -/
def gX : GObj := [("S", [GItem.pat "x"])]

/-- A grammar with two terminal alternatives, `"a"` and `"ab"`. -/
def gAB : GObj := [("S", [GItem.pat "a", GItem.pat "ab"])]

/-- A concrete semantic action: joins its arguments with commas. -/
def actJoin : Action := fun args => joinComma args

/-- A grammar whose single production has two terminals and an action. -/
def gAct : GObj := [("E", [GItem.pat "a b", GItem.act actJoin])]

/-- A grammar referencing the undefined non-terminal `Missing`. -/
def gMissing : GObj := [("S", [GItem.pat "<Missing>"])]

/-- A placeholder compiled grammar (never reached: the grammars below
compile successfully). -/
def emptyGrammar : Grammar := ⟨"", "", [], [], [], []⟩

/-- The compiled form of `gX`. -/
def gXC : Grammar := (constructInner gX "S").toOption.getD emptyGrammar

/-- The compiled form of `gAB`. -/
def gABC : Grammar := (constructInner gAB "S").toOption.getD emptyGrammar

/-- The compiled form of `gAct`. -/
def gActC : Grammar := (constructInner gAct "E").toOption.getD emptyGrammar

/-- The remapped augmented grammar the compiler builds for `gX`. -/
def agX : AugGrammar := [(0, [[1]]), (1, [[2]])]

/-- The initial configuration set the compiler builds for `gX`. -/
def sX0 : ConfigSet := [⟨0, [1], 0⟩, ⟨1, [2], 0⟩]

/-- `jsIsMapping v`: is the JS value a (string-keyed) mapping object? -/
def jsIsMapping : JsVal → Bool
  | .obj _ => true
  | _ => false

/-- The remapped grammar and initial state of `gX` feed the worklist into
exactly these three states and two recorded serializations. -/
def outX : List ConfigSet × List String :=
  ([[⟨0, [1], 0⟩, ⟨1, [2], 0⟩], [⟨0, [1], 1⟩], [⟨1, [2], 1⟩]],
   [serializeSet [⟨0, [1], 1⟩], serializeSet [⟨1, [2], 1⟩]])

/-! ## The claims -/

/-- Claim C1, counterexample: the claim says a reduce step pops exactly
`len(p.rhs)` entries from **both** the state stack and the value stack,
with no replacement value when `p` has no action.  In the code the value
stack is spliced only inside `if (this.actions[productionIndex])`: for the
action-less production `S -> x` of the compiled `gX`, the reduce step at
state stack `[0, 2]`, value stack `["x"]`, pops one state but leaves the
value stack untouched — the claim's predicted empty value stack is never
produced. -/
theorem claim1_counterexample :
    parseStep gXC "x" ⟨1, [0, 2], ["x"]⟩ = .cont ⟨1, [0, 1], ["x"]⟩ ∧
    ¬∃ st', parseStep gXC "x" ⟨1, [0, 2], ["x"]⟩ = .cont st' ∧ st'.values = [] := by
  refine ⟨by rfl, ?_⟩
  rintro ⟨st', h1, h2⟩
  rw [show parseStep gXC "x" ⟨1, [0, 2], ["x"]⟩ = .cont ⟨1, [0, 1], ["x"]⟩ from rfl] at h1
  injection h1 with h3
  rw [← h3] at h2
  simp at h2

/-- Claim C1 (amended): in every reduce step by production `p`, the engine
pops exactly `len(p.rhs)` entries from the state stack (then pushes the
goto target); the value stack is popped only when `p` has a registered
action — the action then receives exactly `len(p.rhs)` arguments, the
popped values in left-to-right rhs order, and its return value replaces
them as a single value — and is left unchanged (the rhs values remain)
when `p` has no action. -/
theorem claim1_theorem (g : Grammar) (stream : String) (st : PState) (cur top gv : Int)
    (row row2 : Row) (ti : Int) (lhs k : Nat)
    (hcur : st.stack.getLast? = some cur)
    (hneg : ¬cur < 0)
    (hrow : g.table.get? cur.toNat = some row)
    (hfl : findLongest g.tokens row.t0 stream st.index = (some (ti, none), st.index))
    (hti : ti < 0)
    (hprod : g.productions.get? ((ti + 1) * (-1)).toNat = some (lhs, k))
    (hks : k ≤ st.stack.length)
    (hkv : k ≤ st.values.length)
    (htop : (st.stack.take (st.stack.length - k)).getLast? = some top)
    (htneg : ¬top < 0)
    (hgrow : g.table.get? top.toNat = some row2)
    (hgoto : lookupA row2.t1 (TKey.num lhs) = some gv)
    (hgv : gv ≠ 0) :
    parseStep g stream st = .cont ⟨st.index,
      st.stack.take (st.stack.length - k) ++ [gv],
      match lookupA g.actions ((ti + 1) * (-1)).toNat with
      | some f =>
        st.values.take (st.values.length - k) ++ [f (st.values.drop (st.values.length - k))]
      | none => st.values⟩ ∧
    (st.stack.take (st.stack.length - k)).length = st.stack.length - k ∧
    (st.values.drop (st.values.length - k)).length = k := by
  refine ⟨parseStep_reduce g stream st cur top gv row row2 ti lhs k hcur hneg hrow hfl hti
    hprod hks hkv htop htneg hgrow hgoto hgv, ?_, drop_last_length _ _ hkv⟩
  rw [List.length_take]
  omega

/-- Claim C1, witness: the reduce of `E -> a b` (with the comma-joining
action) in the compiled `gAct` pops two states and replaces the two popped
values `"a", "b"` — passed in that order — by the single value `"a,b"`. -/
theorem claim1_witness :
    parseStep gActC "a b" ⟨3, [0, 2, 3], ["a", "b"]⟩ = .cont ⟨3, [0, 1], ["a,b"]⟩ ∧
    ((["a", "b"] : List String).drop (2 - 2)).length = 2 := by
  have h := claim1_theorem gActC "a b" ⟨3, [0, 2, 3], ["a", "b"]⟩ 3 0 1
    ⟨[(TKey.dollar, -2)], []⟩ ⟨[(TKey.num 2, 2)], [(TKey.num 1, 1)]⟩ (-2) 1 2
    (by rfl) (by decide) (by rfl) (by rfl) (by decide) (by rfl)
    (by decide) (by decide) (by rfl) (by decide) (by rfl) (by rfl) (by decide)
  exact ⟨h.1.trans (by rfl), h.2.2⟩

/-- Claim C2, counterexample: for the grammar accepting only `"x"`,
parsing `"y"` fails — but the thrown value is the string `161,"y"` (the
array `[0xA1, '"y']` coerced by the trailing `+'"'`), which contains the
excerpt `"y"` yet no digit `0` at all: no position `0` is reported, so the
claim's "carries the current input position ... reported position 0" fails
at this input. -/
theorem claim2_counterexample :
    parse gXC "y" = .error (.str "161,\"y\"") ∧
    ('0' ∈ "161,\"y\"".data → False) ∧
    'y' ∈ "161,\"y\"".data := by
  exact ⟨by rfl, by decide, by decide⟩

/-- Claim C2 (amended): when no shift matches and no reduce/accept is
applicable, the parse call fails; the thrown value is the string
`161,"<excerpt>"` — the parse-error array coerced to a string by the
trailing `+'"'` — whose excerpt is at most 40 characters and is a prefix
of the unconsumed remainder starting at the failure position; no explicit
position value is carried; `displayError` rethrows the string unchanged. -/
theorem claim2_theorem (g : Grammar) (stream : String) (st : PState) (cur : Int)
    (row : Row) (fuel : Nat)
    (hcur : st.stack.getLast? = some cur)
    (hneg : ¬cur < 0)
    (hrow : g.table.get? cur.toNat = some row)
    (hfl : (findLongest g.tokens row.t0 stream st.index).1 = none) :
    parseStep g stream st =
      .fail (.strv ("161," ++ "\"" ++ jsSubstr stream st.index 40 ++ "\"")) ∧
    parseLoop g stream (fuel + 1) st =
      .error (.str ("161," ++ "\"" ++ jsSubstr stream st.index 40 ++ "\"")) ∧
    (jsSubstr stream st.index 40).length ≤ 40 ∧
    (jsSubstr stream st.index 40).data <+: (strDrop stream st.index).data := by
  have hfl' := findLongest_none_case hfl
  have hstep := parseStep_fail g stream st cur row hcur hneg hrow hfl'
  refine ⟨hstep, ?_, ?_, ?_⟩
  · rw [parseLoop_fail g stream fuel st _ hstep]
    rfl
  · show ((stream.data.drop st.index).take 40).length ≤ 40
    exact List.length_take_le _ _
  · show ((stream.data.drop st.index).take 40) <+: stream.data.drop st.index
    exact List.take_prefix _ _

/-- Claim C2, witness: the failing parse of `"y"` against the compiled
`gX` at position 0 yields the coerced error string with excerpt `"y"`. -/
theorem claim2_witness :
    parseStep gXC "y" ⟨0, [0], []⟩ =
      .fail (.strv ("161," ++ "\"" ++ jsSubstr "y" 0 40 ++ "\"")) ∧
    parseLoop gXC "y" 1 ⟨0, [0], []⟩ = .error (.str "161,\"y\"") := by
  have h := claim2_theorem gXC "y" ⟨0, [0], []⟩ 0 ⟨[(TKey.num 2, 2)], [(TKey.num 1, 1)]⟩ 0
    (by rfl) (by decide) (by rfl) (by rfl)
  exact ⟨h.1, h.2.1.trans (by rfl)⟩

/-- Claim C3 (confirmed): among the shift entries of the current state's
terminal table whose patterns match at the scan position, the engine
selects the one with the strictly longest matched text — ties keep the
entry evaluated first in `for...in` iteration order (ascending token
index, then `'$'`), i.e. the first entry attaining the maximum — and a
found shift match takes precedence over any recorded reduce/accept
candidate (the result is a shift whenever any match exists). -/
theorem claim3_theorem (tokens : List Token) (row0 : List (TKey × Int))
    (stream : String) (index : Nat)
    (hne : shiftMatches tokens stream index (iterOrder row0) ≠ []) :
    ∃ l, l ∈ shiftMatches tokens stream index (iterOrder row0) ∧
      (∀ m ∈ shiftMatches tokens stream index (iterOrder row0), m.1.length ≤ l.1.length) ∧
      (∃ fore aft, shiftMatches tokens stream index (iterOrder row0) = fore ++ l :: aft ∧
        ∀ m ∈ fore, m.1.length < l.1.length) ∧
      findLongest tokens row0 stream index =
        (some (l.2, some l.1), index + l.1.length +
          countSpaces (strDrop stream (index + l.1.length))) :=
  findLongest_of_matches tokens row0 stream index hne

/-- Claim C3, witness: with alternatives `"a"` and `"ab"` (token indices 2
and 3 of the compiled `gAB`) against input `"ab"`, both match and the
longer match `"ab"` is selected; the full parse accepts with `["ab"]`. -/
theorem claim3_witness :
    (∃ l, l ∈ shiftMatches gABC.tokens "ab" 0 (iterOrder [(TKey.num 2, 2), (TKey.num 3, 3)]) ∧
      (∀ m ∈ shiftMatches gABC.tokens "ab" 0 (iterOrder [(TKey.num 2, 2), (TKey.num 3, 3)]),
        m.1.length ≤ l.1.length) ∧
      (∃ fore aft, shiftMatches gABC.tokens "ab" 0 (iterOrder [(TKey.num 2, 2), (TKey.num 3, 3)]) =
        fore ++ l :: aft ∧ ∀ m ∈ fore, m.1.length < l.1.length) ∧
      findLongest gABC.tokens [(TKey.num 2, 2), (TKey.num 3, 3)] "ab" 0 =
        (some (l.2, some l.1), 0 + l.1.length +
          countSpaces (strDrop "ab" (0 + l.1.length)))) ∧
    findLongest gABC.tokens [(TKey.num 2, 2), (TKey.num 3, 3)] "ab" 0 =
      (some (3, some "ab"), 2) ∧
    parse gABC "ab" = .ok ["ab"] := by
  exact ⟨claim3_theorem gABC.tokens [(TKey.num 2, 2), (TKey.num 3, 3)] "ab" 0 (by decide),
    by rfl, by rfl⟩

/-- Claim C4 (confirmed): two configuration sets are the same automaton
state iff their serializations are textually identical — `JSON.stringify`
is injective on configuration lists, so identity of serialization is
identity of the configuration list, and sets holding the same
configurations in a different order (the concrete permuted pair below)
serialize differently and are never merged.  For every completed worklist
run from an initial state headed by a dot-0 configuration: the recorded
serializations are exactly those of the discovered states, all state
serializations are pairwise distinct, and every non-empty successor of a
listed state was appended, i.e. is itself a listed state. -/
theorem claim4_theorem :
    (∀ s1 s2 : ConfigSet, serializeSet s1 = serializeSet s2 → s1 = s2) ∧
    serializeSet [⟨1, [2], 0⟩, ⟨3, [4], 1⟩] ≠ serializeSet [⟨3, [4], 1⟩, ⟨1, [2], 0⟩] ∧
    (∀ (ag : AugGrammar) (s0 : ConfigSet) (c0 : Config) (t0 : ConfigSet) (fuel : Nat)
      (out : List ConfigSet × List String),
      s0 = c0 :: t0 → c0.index = 0 → expandAux ag fuel [s0] [] 0 = some out →
      (∃ tail, out.1 = s0 :: tail ∧ out.2 = tail.map serializeSet) ∧
      (out.1.map serializeSet).Nodup ∧
      (∀ s ∈ out.1, ∀ cfg ∈ s, ∀ sym ∈ cfg.rhs,
        successorF ag s sym ≠ [] → successorF ag s sym ∈ out.1)) := by
  refine ⟨fun s1 s2 => serializeSet_inj, by decide, ?_⟩
  intro ag s0 c0 t0 fuel out h0 hidx hrun
  exact expandRun_spec ag s0 c0 t0 fuel out h0 hidx hrun

/-- Claim C4, witness: the worklist run for `gX`'s remapped grammar from
its initial state discovers exactly two further states, with distinct
serializations and successor-completeness. -/
theorem claim4_witness :
    (∃ tail, outX.1 = sX0 :: tail ∧ outX.2 = tail.map serializeSet) ∧
    (outX.1.map serializeSet).Nodup ∧
    (∀ s ∈ outX.1, ∀ cfg ∈ s, ∀ sym ∈ cfg.rhs,
      successorF agX s sym ≠ [] → successorF agX s sym ∈ outX.1) :=
  claim4_theorem.2.2 agX sX0 ⟨0, [1], 0⟩ [⟨1, [2], 0⟩] 1000 outX (by rfl) (by rfl) (by rfl)

/-- Claim C5 (confirmed): for every `(state, table-slot, symbol)` key of a
constructed row, the retained action is that of the first configuration,
in the state's configuration (traversal) order, contributing a candidate
for that key; every later candidate for the same key is dropped. -/
theorem claim5_theorem (tokens : List Token) (aST : String) (ag : AugGrammar)
    (condP condCS : List String) (set : ConfigSet) (slot : Bool) (key : TKey) :
    rowLookup (buildRow tokens aST ag condP condCS set) slot key =
      ((set.map (cellOf tokens aST ag condP condCS set)).find?
        (fun c => decide (c.slot = slot) && decide (c.key = key))).map Cell.action := by
  unfold buildRow
  rw [rowIns_fold_lookup]
  have hempty : rowLookup ⟨[], []⟩ slot key = none := by
    cases slot <;> rfl
  rw [hempty]

/-- Claim C6 (confirmed): after a successful shift the scan cursor lands
at the match end plus exactly the immediately following run of spaces;
when the result is a reduce (or accept) candidate the cursor is returned
unchanged, so no whitespace is skipped; and the value pushed by a shift is
exactly the matched text — the skipped spaces are never placed on the
value stack. -/
theorem claim6_theorem :
    (∀ (tokens : List Token) (row0 : List (TKey × Int)) (stream : String) (index : Nat)
      (a : Int) (v : String),
      (findLongest tokens row0 stream index).1 = some (a, some v) →
      (findLongest tokens row0 stream index).2 =
        index + v.length + countSpaces (strDrop stream (index + v.length))) ∧
    (∀ (tokens : List Token) (row0 : List (TKey × Int)) (stream : String) (index : Nat)
      (r : Int),
      (findLongest tokens row0 stream index).1 = some (r, none) →
      (findLongest tokens row0 stream index).2 = index) ∧
    (∀ (g : Grammar) (stream : String) (st : PState) (cur : Int) (row : Row)
      (ti : Int) (v : String) (i' : Nat),
      st.stack.getLast? = some cur → ¬cur < 0 → g.table.get? cur.toNat = some row →
      findLongest g.tokens row.t0 stream st.index = (some (ti, some v), i') → ti > 0 →
      parseStep g stream st = .cont ⟨i', st.stack ++ [ti], st.values ++ [v]⟩) := by
  refine ⟨?_, ?_, ?_⟩
  · intro tokens row0 stream index a v h
    rw [findLongest_shift_case h]
  · intro tokens row0 stream index r h
    rw [findLongest_reduce_case h]
  · intro g stream st cur row ti v i' hcur hneg hrow hfl hti
    exact parseStep_shift g stream st cur row ti v i' hcur hneg hrow hfl hti

/-- Claim C6, witness: shifting `"a"` out of `"a   b"` in the compiled
`gAct` advances the cursor from 0 to `1 + 3` (match length one, then three
skipped spaces), and pushes only the matched `"a"` on the value stack. -/
theorem claim6_witness :
    (findLongest gActC.tokens [(TKey.num 2, 2)] "a   b" 0).2 =
      0 + "a".length + countSpaces (strDrop "a   b" (0 + "a".length)) ∧
    countSpaces (strDrop "a   b" 1) = 3 ∧
    parseStep gActC "a   b" ⟨0, [0], []⟩ = .cont ⟨4, [0, 2], ["a"]⟩ := by
  refine ⟨claim6_theorem.1 gActC.tokens [(TKey.num 2, 2)] "a   b" 0 2 "a" (by rfl), by rfl, ?_⟩
  exact claim6_theorem.2.2 gActC "a   b" ⟨0, [0], []⟩ 0 ⟨[(TKey.num 2, 2)], [(TKey.num 1, 1)]⟩
    2 "a" 4 (by rfl) (by decide) (by rfl) (by rfl) (by decide)

/-- Claim C7 (confirmed): referencing a non-terminal with no entry in the
grammar mapping makes `buildProductions` fail with the `[0x10, name]`
error; the failure propagates out of construction (no grammar object
results), and the surfaced error message names the missing non-terminal. -/
theorem claim7_theorem (g : GObj) (sT missing : String) (fuel : Nat) (st : BSt)
    (hmiss : lookupA (upsertA g (sT ++ "`") [GItem.pat ("<" ++ sT ++ ">")]) missing = none)
    (h : constructInner g sT = .error (.js (.arr 0x10 [missing]))) :
    buildProductions (upsertA g (sT ++ "`") [GItem.pat ("<" ++ sT ++ ">")]) (fuel + 1)
        missing st = .error (.js (.arr 0x10 [missing])) ∧
    (∀ gr, constructInner g sT ≠ .ok gr) ∧
    mkGrammar (.obj g) (.strv sT) false =
      .error (.str ("The non-terminal \"" ++ missing ++ "\" is not defined in the grammar.")) := by
  refine ⟨?_, ?_, ?_⟩
  · simp only [buildProductions, hmiss]
  · intro gr hgr
    rw [h] at hgr
    exact Except.noConfusion hgr
  · have h1 : mkGrammar (.obj g) (.strv sT) false =
        .error (cowOfEErr (.js (.arr 0x10 [missing]))) := by
      simp only [mkGrammar]
      rw [if_pos ⟨rfl, rfl⟩]
      rw [h]
    rw [h1]
    simp only [cowOfEErr]
    rw [render_undefined]

/-- Claim C7, witness: the grammar `\x7b S: [/<Missing>/] \x7d` references
the undefined non-terminal `Missing`; construction fails and the error
message names it. -/
theorem claim7_witness :
    buildProductions (upsertA gMissing ("S" ++ "`") [GItem.pat ("<" ++ "S" ++ ">")]) (0 + 1)
        "Missing" (saveToken ⟨[], [], []⟩ "S`" false) = .error (.js (.arr 0x10 ["Missing"])) ∧
    mkGrammar (.obj gMissing) (.strv "S") false =
      .error (.str "The non-terminal \"Missing\" is not defined in the grammar.") := by
  have h := claim7_theorem gMissing "S" "Missing" 0 (saveToken ⟨[], [], []⟩ "S`" false)
    (by rfl) (by rfl)
  exact ⟨h.1, h.2.2.trans (by rfl)⟩

/-- Claim C8, counterexample: `typeof null === 'object'`, so a `null`
grammar argument passes the constructor guard and construction does NOT
fail fast with the invalid-arguments error — it fails later with a
`TypeError` when construction dereferences the grammar; moreover even for
a genuinely rejected argument the escaping value is the bare number `0`
(`displayError` rethrows numbers unchanged, as they have no `length`), not
the rendered invalid-constructor-arguments message. -/
theorem claim8_counterexample :
    jsTypeof .nullv = "object" ∧
    mkGrammar .nullv (.strv "S") false = .error .typeError ∧
    mkGrammar (.numv 3) (.strv "S") false = .error (.num 0) ∧
    (CowErr.num 0 = .str "Invalid constructor arguments." → False) := by
  exact ⟨rfl, rfl, rfl, fun hc => CowErr.noConfusion hc⟩

/-- Claim C8 (amended): whenever the typeof guard rejects the arguments
(the grammar's `typeof` is not `'object'` or the start symbol's is not
`'string'`), construction stops before any construction work and the
escaping error is the thrown code `0x00` itself — the number `0`, which
`displayError` rethrows unrendered since numbers have no `length`
property.  A `null` grammar, however, passes the guard (its `typeof` is
`'object'`) and is not caught by this check. -/
theorem claim8_theorem (grammar sT : JsVal)
    (h : ¬(jsTypeof grammar = "object" ∧ jsTypeof sT = "string")) :
    mkGrammar grammar sT false = .error (displayError (.numv 0)) ∧
    displayError (.numv 0) = .num 0 := by
  refine ⟨?_, rfl⟩
  simp only [mkGrammar, if_neg h]

/-- Claim C8, witness: a numeric grammar argument is rejected by the guard
and the call fails with the rethrown number `0`. -/
theorem claim8_witness :
    ¬(jsTypeof (JsVal.numv 3) = "object" ∧ jsTypeof (JsVal.strv "S") = "string") ∧
    mkGrammar (.numv 3) (.strv "S") false = .error (displayError (.numv 0)) := by
  have hg : ¬(jsTypeof (JsVal.numv 3) = "object" ∧ jsTypeof (JsVal.strv "S") = "string") := by
    decide
  exact ⟨hg, (claim8_theorem (.numv 3) (.strv "S") hg).1⟩

/-- Claim C9, counterexample: the claim's "unless an equivalent one is
already present" is false for configurations present in the **input** set:
the per-call `condensed` ledger starts empty, so closure re-adds a dot-0
configuration even when an identical one is already in the set it was
called on — here `(5 -> .7)` is in the input and is appended again,
leaving a duplicate. -/
theorem claim9_counterexample :
    closureRun [(5, [[7]])] [⟨5, [7], 0⟩, ⟨9, [5], 0⟩] =
      [⟨5, [7], 0⟩, ⟨9, [5], 0⟩, ⟨5, [7], 0⟩] ∧
    (⟨5, [7], 0⟩ : Config) ∈ [(⟨5, [7], 0⟩ : Config), ⟨9, [5], 0⟩] := by
  exact ⟨rfl, List.mem_cons_self _ _⟩

/-- Claim C9 (amended): closure terminates on every input set (the fuel
bound `closureFuel` — input length plus the number of distinct production
keys — always suffices, with any surplus); it extends the input set in
place (the input is an initial segment of the result); each added
configuration is a dot-0 instance of a grammar alternative, and each
`(lhs, rhs)` pair is added at most once **per call** (the additions have
pairwise-distinct condensed keys — deduplication is against this call's
additions only, not against the input set); and the result is closed: for
every member with a non-terminal after its dot, every alternative of that
non-terminal occurs at dot 0 in the result. -/
theorem claim9_theorem (ag : AugGrammar) (cs : ConfigSet) :
    (∀ extra, closureAux ag (closureFuel ag cs + extra) cs [] 0 = some (closureRun ag cs)) ∧
    (∃ adds, closureRun ag cs = cs ++ adds ∧
      (adds.map keyOf).Nodup ∧
      ∀ a ∈ adds, a.index = 0 ∧ ∃ alts, lookupA ag a.lhs = some alts ∧ a.rhs ∈ alts) ∧
    (∀ c ∈ closureRun ag cs, closedAt ag (closureRun ag cs) c) := by
  obtain ⟨h1, h2⟩ := closureRun_spec ag cs
  exact ⟨fun extra => closureRun_terminates ag cs extra, h1, h2⟩

/-- Claim C9, witness: on the set `[(5 -> .7), (9 -> .5)]` over the
grammar `\x7b 5: [[7]] \x7d`, the fuelled closure completes, and
closedness instantiated at the member `(9 -> .5)` yields the dot-0
configuration `(5 -> .7)` in the result. -/
theorem claim9_witness :
    closureAux [(5, [[7]])] (closureFuel [(5, [[7]])] [⟨5, [7], 0⟩, ⟨9, [5], 0⟩] + 0)
        [⟨5, [7], 0⟩, ⟨9, [5], 0⟩] [] 0 =
      some (closureRun [(5, [[7]])] [⟨5, [7], 0⟩, ⟨9, [5], 0⟩]) ∧
    (⟨5, [7], 0⟩ : Config) ∈ closureRun [(5, [[7]])] [⟨5, [7], 0⟩, ⟨9, [5], 0⟩] := by
  have h := claim9_theorem [(5, [[7]])] [⟨5, [7], 0⟩, ⟨9, [5], 0⟩]
  refine ⟨h.1 0, ?_⟩
  exact h.2.2 ⟨9, [5], 0⟩ (by decide) 5 [[7]] (by rfl) (by rfl) [7] (by decide)

/-- Claim C10 (confirmed): `parse` reads the compiled tables but never
writes them — the grammar object after any call is the object before it —
and every call runs on a freshly allocated machine state: cursor 0, state
stack `[0]`, empty value stack.  Consequently a compiled grammar is
reusable: a call on a second stream equals a call on the fresh object, and
concretely the compiled two-alternative grammar parses `"ab"` and then,
with the object left by that call, parses the structurally different
`"a"`. -/
theorem claim10_theorem :
    (∀ (g : Grammar) (stream : String),
      parseCall g stream = (parseLoop g stream parseFuel ⟨0, [0], []⟩, g)) ∧
    (∀ (g : Grammar) (a b : String),
      (parseCall g a).2 = g ∧ parseCall ((parseCall g a).2) b = parseCall g b) ∧
    parse gABC "ab" = .ok ["ab"] ∧
    parse ((parseCall gABC "ab").2) "a" = .ok ["a"] := by
  exact ⟨fun g s => rfl, fun g a b => ⟨rfl, rfl⟩, rfl, rfl⟩

end Cowbird
